import Mathlib

/-!
# GO-JSON-Database: a verification development of `main.go`

The store of `main.go` keeps every resource as a file
`<base>/<collection>/<resource>.json`.  This file embeds

* the path arithmetic the driver relies on (`filepath.Clean`, `filepath.Join`
  and string concatenation of suffixes),
* a tree-shaped file system with the `os` calls the driver issues,
* the driver operations `New`, `Write`, `Read`, `ReadAll`, `Delete`,
  `getOrCreatedMutex` and `stat`, translated statement by statement; the two
  mutating methods are run as `WriteRun` and `DeleteRun`, which also record
  the lock operations and the mutating `os` calls in source order,

and then states and settles the properties of the specification.

Go `string` and `[]byte` values are lists of characters.  The environment
has no symbolic links, no permission failures and no resource exhaustion:
an `os` call fails exactly when the shape of the tree makes it fail.
-/

namespace GoJsonDb

/-! ## Strings and paths -/

/-- A Go string (also used for `[]byte`). -/
abbrev Str := List Char

/-- One element of a path: the text between two separators. -/
abbrev Name := List Char

/-- An absolute location in the tree: the names from the root downwards. -/
abbrev Loc := List Name

/-- The suffix `".json"`. -/
def dotJson : Str := ['.', 'j', 's', 'o', 'n']

/-- The suffix `".tmp"`. -/
def dotTmp : Str := ['.', 't', 'm', 'p']

/-- The element `"."`. -/
def dot : Name := ['.']

/-- The element `".."`. -/
def dotdot : Name := ['.', '.']

/-- Split a path at every separator `/`; the result is never empty. -/
def splitSlash : Str → List Name
  | [] => [[]]
  | c :: cs =>
    if c = '/' then [] :: splitSlash cs
    else match splitSlash cs with
      | [] => [[c]]
      | h :: t => (c :: h) :: t

/-- Concatenate elements with the separator `/` (`strings.Join(elem, "/")`). -/
def joinSlash : List Name → Str
  | [] => []
  | [a] => a
  | a :: b :: r => a ++ '/' :: joinSlash (b :: r)

/-- Whether a path starts at the root. -/
def rooted (p : Str) : Bool :=
  match p with
  | c :: _ => decide (c = '/')
  | [] => false

/-- One step of `filepath.Clean` on the stack of elements kept so far (top of
the stack first): empty elements and `.` are dropped, `..` removes the element
before it, is dropped at the root, and is kept at the start of a relative
path. -/
def cleanStep (isRooted : Bool) (st : List Name) (c : Name) : List Name :=
  if c = [] ∨ c = dot then st
  else if c = dotdot then
    match st with
    | [] => if isRooted then [] else [dotdot]
    | l :: rest => if l = dotdot then dotdot :: l :: rest else rest
  else c :: st

/-- Print a cleaned stack: `filepath.Clean` returns `"."` for the empty
relative path and `"/"` for the root. -/
def render (isRooted : Bool) (st : List Name) : Str :=
  let out := (if isRooted then ['/'] else []) ++ joinSlash st.reverse
  if out = [] then dot else out

/-- The function `filepath.Clean` of Go on a Unix system. -/
def Clean (p : Str) : Str :=
  render (rooted p) ((splitSlash p).foldl (cleanStep (rooted p)) [])

/-- The function `filepath.Join`: leading empty elements are skipped, the rest
is joined with `/` and cleaned; all elements empty gives the empty string. -/
def Join : List Str → Str
  | [] => []
  | e :: es => if e = [] then Join es else Clean (joinSlash (e :: es))

/-! ## The file system -/

/-- The error numbers the model can produce. -/
inductive Errno where
  | ENOENT
  | ENOTDIR
  | EISDIR
  | EEXIST
  | EINVAL
  | EBUSY
  deriving DecidableEq, Repr

/-- A node of the tree: a regular file with its content, or a directory with
its entries.  In a list of entries the first entry of a name is the one that
counts. -/
inductive Node where
  | file (data : Str)
  | dir (kids : List (Name × Node))

/-- The entries of a directory. -/
abbrev Kids := List (Name × Node)

/-- The state of the file system: the entries of the root directory and the
working directory of the process. -/
structure FS where
  cwd : Loc
  root : Kids

/-- What `os.FileInfo` tells the driver: `Mode().IsRegular()` or
`Mode().IsDir()`. -/
inductive FileMode where
  | regular
  | directory
  deriving DecidableEq, Repr

/-- The mode of a node. -/
def Node.mode : Node → FileMode
  | .file _ => .regular
  | .dir _ => .directory

/-- The entry of a name in a directory. -/
def lookupK : Kids → Name → Option Node
  | [], _ => none
  | (a, x) :: r, c => if a = c then some x else lookupK r c

/-- Set the entry of a name, in place when the name is present. -/
def ins : Kids → Name → Node → Kids
  | [], c, k => [(c, k)]
  | (a, x) :: r, c, k => if a = c then (c, k) :: r else (a, x) :: ins r c k

/-- Remove every entry of a name. -/
def del : Kids → Name → Kids
  | [], _ => []
  | (a, x) :: r, c => if a = c then del r c else (a, x) :: del r c

/-- Follow a location downwards from a node. -/
def walk : Loc → Node → Except Errno Node
  | [], n => .ok n
  | _ :: _, .file _ => .error .ENOTDIR
  | c :: cs, .dir ks =>
    match lookupK ks c with
    | none => .error .ENOENT
    | some k => walk cs k

/-- Create the directories of a location that are missing; a regular file on
the way is an error and nothing is created. -/
def mkdirAllN : Loc → Node → Except Errno Node
  | _, .file _ => .error .ENOTDIR
  | [], .dir ks => .ok (.dir ks)
  | c :: cs, .dir ks =>
    match mkdirAllN cs ((lookupK ks c).getD (.dir [])) with
    | .ok k => .ok (.dir (ins ks c k))
    | .error e => .error e

/-- Create or truncate the regular file at a location and write its content;
the directory that holds it must exist. -/
def writeFileN (data : Str) : Loc → Node → Except Errno Node
  | [], .file _ => .ok (.file data)
  | [], .dir _ => .error .EISDIR
  | _ :: _, .file _ => .error .ENOTDIR
  | c :: cs, .dir ks =>
    match lookupK ks c with
    | none => if cs = [] then .ok (.dir (ins ks c (.file data))) else .error .ENOENT
    | some k =>
      match writeFileN data cs k with
      | .ok k1 => .ok (.dir (ins ks c k1))
      | .error e => .error e

/-- Put a node at a location, replacing what is there; the directory that
holds it must exist. -/
def putN (new : Node) : Loc → Node → Except Errno Node
  | [], _ => .ok new
  | _ :: _, .file _ => .error .ENOTDIR
  | c :: cs, .dir ks =>
    match lookupK ks c with
    | none => if cs = [] then .ok (.dir (ins ks c new)) else .error .ENOENT
    | some k =>
      match putN new cs k with
      | .ok k1 => .ok (.dir (ins ks c k1))
      | .error e => .error e

/-- Remove the node at a location with everything beneath it; a location that
does not exist is left alone, a regular file on the way is an error. -/
def removeN : Loc → Node → Except Errno Node
  | [], n => .ok n
  | _ :: _, .file _ => .error .ENOTDIR
  | [c], .dir ks => .ok (.dir (del ks c))
  | c :: c1 :: cs, .dir ks =>
    match lookupK ks c with
    | none => .ok (.dir ks)
    | some k =>
      match removeN (c1 :: cs) k with
      | .ok k1 => .ok (.dir (ins ks c k1))
      | .error e => .error e

/-- One step of path resolution (top of the stack first): empty elements and
`.` stay in place, `..` goes to the parent (the root is its own parent). -/
def resolveStep (st : List Name) (c : Name) : List Name :=
  if c = [] ∨ c = dot then st
  else if c = dotdot then st.tail
  else c :: st

/-- The location a path names: a rooted path starts at the root, any other
path at the working directory. -/
def resolve (fs : FS) (p : Str) : Loc :=
  ((splitSlash p).foldl resolveStep (if rooted p then [] else fs.cwd.reverse)).reverse

/-- The root directory of a file system, as a node. -/
def FS.top (fs : FS) : Node := .dir fs.root

/-- Rebuild the file system from a new root node. -/
def FS.withTop (fs : FS) : Node → FS
  | .dir ks => { fs with root := ks }
  | .file _ => fs

/-- The node a path names. -/
def nodeAt (fs : FS) (p : Str) : Except Errno Node :=
  if p = [] then .error .ENOENT else walk (resolve fs p) fs.top

/-- The call `os.Stat`. -/
def osStat (fs : FS) (p : Str) : Except Errno FileMode :=
  match nodeAt fs p with
  | .ok n => .ok n.mode
  | .error e => .error e

/-- The call `os.MkdirAll`. -/
def osMkdirAll (fs : FS) (p : Str) : Except Errno FS :=
  if p = [] then .error .ENOENT
  else match mkdirAllN (resolve fs p) fs.top with
    | .ok n => .ok (fs.withTop n)
    | .error e => .error e

/-- The call `os.WriteFile`. -/
def osWriteFile (fs : FS) (p : Str) (data : Str) : Except Errno FS :=
  if p = [] then .error .ENOENT
  else match writeFileN data (resolve fs p) fs.top with
    | .ok n => .ok (fs.withTop n)
    | .error e => .error e

/-- The call `os.ReadFile`. -/
def osReadFile (fs : FS) (p : Str) : Except Errno Str :=
  match nodeAt fs p with
  | .ok (.file data) => .ok data
  | .ok (.dir _) => .error .EISDIR
  | .error e => .error e

/-- Byte order on names: `true` when the first name is before the second or
equal to it. -/
def nameLe : Name → Name → Bool
  | [], _ => true
  | _ :: _, [] => false
  | a :: as, b :: bs => if a.toNat < b.toNat then true else if b.toNat < a.toNat then false else nameLe as bs

/-- Insert a name into a sorted list. -/
def insertName (n : Name) : List Name → List Name
  | [] => [n]
  | m :: ms => if nameLe n m then n :: m :: ms else m :: insertName n ms

/-- Sort names by byte order. -/
def sortNames : List Name → List Name
  | [] => []
  | n :: ns => insertName n (sortNames ns)

/-- The names of the entries of a directory, each once. -/
def kidNames : Kids → List Name
  | [] => []
  | (a, _) :: r => a :: (kidNames r).filter (fun b => decide (b ≠ a))

/-- The call `os.ReadDir`: the entry names sorted by file name. -/
def osReadDir (fs : FS) (p : Str) : Except Errno (List Name) :=
  match nodeAt fs p with
  | .ok (.dir ks) => .ok (sortNames (kidNames ks))
  | .ok (.file _) => .error .ENOTDIR
  | .error e => .error e

/-- Whether the first location is the second or an ancestor of it. -/
def isPrefixLoc : Loc → Loc → Bool
  | [], _ => true
  | _ :: _, [] => false
  | a :: as, b :: bs => decide (a = b) && isPrefixLoc as bs

/-- The call `os.Rename`.  An existing directory at the new path is refused
with `EEXIST` before the system call; the system call replaces a regular file
at the new path. -/
def osRename (fs : FS) (oldpath newpath : Str) : Except Errno FS :=
  match nodeAt fs oldpath with
  | .error e => .error e
  | .ok src =>
    if newpath = [] then .error .ENOENT
    else match nodeAt fs newpath with
    | .ok (.dir _) => .error .EEXIST
    | .error .ENOTDIR => .error .ENOTDIR
    | dst =>
      if resolve fs oldpath = resolve fs newpath then .ok fs
      else
        let blocked : Option Errno :=
          match src, dst with
          | .dir _, .ok _ => some .ENOTDIR
          | .dir _, .error _ =>
            if isPrefixLoc (resolve fs oldpath) (resolve fs newpath) then some .EINVAL else none
          | .file _, _ => none
        match blocked with
        | some e => .error e
        | none =>
          match removeN (resolve fs oldpath) fs.top with
          | .error e => .error e
          | .ok n =>
            match putN src (resolve fs newpath) n with
            | .error e => .error e
            | .ok n1 => .ok (fs.withTop n1)

/-- The helper `endsWithDot` of `os.RemoveAll`. -/
def endsWithDot (p : Str) : Bool :=
  decide (p = dot) ||
    (match p.reverse with
     | a :: b :: _ => decide (a = '.') && decide (b = '/')
     | _ => false)

/-- The call `os.RemoveAll`: the empty path and a missing path are a success,
a path that ends in a dot element is `EINVAL`; the root directory loses its
entries and stays, with `EBUSY`. -/
def osRemoveAll (fs : FS) (p : Str) : FS × Option Errno :=
  if p = [] then (fs, none)
  else if endsWithDot p then (fs, some .EINVAL)
  else if resolve fs p = [] then ({ fs with root := [] }, some .EBUSY)
  else match removeN (resolve fs p) fs.top with
    | .ok n => (fs.withTop n, none)
    | .error e => (fs, some e)

/-! ## The driver -/

/-- A Go `error` value of the driver: built by `fmt.Errorf`, returned by an
`os` call, or returned by `encoding/json`. -/
inductive Error where
  | errorf (msg : Str)
  | os (errno : Errno)
  | json
  deriving DecidableEq, Repr

/-- The two functions of `encoding/json` the driver calls, for values of type
`V`: `json.MarshalIndent(v, "", "\t")`, which is `none` for a value that does
not serialise, and `json.Unmarshal(b, &v)`, which decodes into the value the
caller passed and is `none` when the bytes do not decode. -/
structure Codec (V : Type) where
  marshalIndent : V → Option Str
  unmarshal : Str → V → Option V

/-- The struct `Driver`: the base directory and the registry of
per-collection locks.  A lock handle is the number of the allocation. -/
structure Driver where
  mutexes : List (Str × Nat)
  dir : Str
  deriving DecidableEq, Repr

/-- The lock a registry holds for a collection. -/
def lookupMutex : List (Str × Nat) → Str → Option Nat
  | [], _ => none
  | (k, m) :: r, c => if k = c then some m else lookupMutex r c

/-- The method `getOrCreatedMutex`: the lock registered for the collection,
registered now when there is none. -/
def getOrCreatedMutex (d : Driver) (collection : Str) : Driver × Nat :=
  match lookupMutex d.mutexes collection with
  | some m => (d, m)
  | none =>
    let m := d.mutexes.length
    ({ d with mutexes := d.mutexes ++ [(collection, m)] }, m)

/-- The helper `stat`: `os.Stat` of the path and, when that path does not
exist, `os.Stat` of the path with `.json` appended. -/
def stat (fs : FS) (path : Str) : Except Errno FileMode :=
  match osStat fs path with
  | .error .ENOENT => osStat fs (path ++ dotJson)
  | r => r

/-- The constructor `New`: the base directory is cleaned, and created when
`os.Stat` fails on it. -/
def New (fs : FS) (dir : Str) : Driver × FS × Option Error :=
  let dir := Clean dir
  let driver : Driver := { mutexes := [], dir := dir }
  match osStat fs dir with
  | .ok _ => (driver, fs, none)
  | .error _ =>
    match osMkdirAll fs dir with
    | .ok fs1 => (driver, fs1, none)
    | .error e => (driver, fs, some (.os e))

/-- What a mutating method does besides computing: it takes and releases a
lock, and it issues the `os` calls that change the file system, each with the
path it is given. -/
inductive Event where
  | lock (m : Nat)
  | unlock (m : Nat)
  | mkdirAll (p : Str)
  | writeFile (p : Str)
  | rename (oldpath newpath : Str)
  | removeAll (p : Str)
  deriving DecidableEq, Repr

/-- A call of a mutating method, run to its return: the driver and the file
system it leaves, the error it returns, and its events in the order of the
source. -/
structure Run where
  driver : Driver
  fs : FS
  err : Option Error
  trace : List Event

/-- The method `Write`, statement by statement.  The two `fmt.Errorf` values
for an empty collection and an empty resource are built and dropped, as in the
source.  `mutex.Lock()` is the first event; `defer mutex.Unlock()` makes
`unlock` the last event of every return. -/
def WriteRun {V : Type} (codec : Codec V) (d : Driver) (fs : FS)
    (collection resource : Str) (v : V) : Run :=
  let _unused1 : Option Error :=
    if collection = [] then some (.errorf "Missing Collection - no place to save record".toList)
    else none
  let _unused2 : Option Error :=
    if resource = [] then some (.errorf "Missing Resource - nable to save record (no name)".toList)
    else none
  let d1 := (getOrCreatedMutex d collection).1
  let mutex := (getOrCreatedMutex d collection).2
  let t0 : List Event := [.lock mutex]
  let dir := Join [d1.dir, collection]
  let fnlPath := Join [dir, resource ++ dotJson]
  let tmpPath := fnlPath ++ dotTmp
  let t1 := t0 ++ [.mkdirAll dir]
  match osMkdirAll fs dir with
  | .error e => ⟨d1, fs, some (.os e), t1 ++ [.unlock mutex]⟩
  | .ok fs1 =>
    match codec.marshalIndent v with
    | none => ⟨d1, fs1, some .json, t1 ++ [.unlock mutex]⟩
    | some b =>
      let b1 := b ++ ['\n']
      let t2 := t1 ++ [.writeFile tmpPath]
      match osWriteFile fs1 tmpPath b1 with
      | .error e => ⟨d1, fs1, some (.os e), t2 ++ [.unlock mutex]⟩
      | .ok fs2 =>
        let t3 := t2 ++ [.rename tmpPath fnlPath]
        match osRename fs2 tmpPath fnlPath with
        | .error e => ⟨d1, fs2, some (.os e), t3 ++ [.unlock mutex]⟩
        | .ok fs3 => ⟨d1, fs3, none, t3 ++ [.unlock mutex]⟩

/-- The method `Write` as its caller sees it: the driver and the file system
after the call, and the error returned. -/
def Write {V : Type} (codec : Codec V) (d : Driver) (fs : FS)
    (collection resource : Str) (v : V) : Driver × FS × Option Error :=
  let r := WriteRun codec d fs collection resource v
  (r.driver, r.fs, r.err)

/-- The method `Read`: the decoded value, or the error. -/
def Read {V : Type} (codec : Codec V) (d : Driver) (fs : FS)
    (collection resource : Str) (v : V) : Except Error V :=
  let _unused1 : Option Error :=
    if collection = [] then some (.errorf "Missing Collection - unable to read".toList)
    else none
  let _unused2 : Option Error :=
    if resource = [] then some (.errorf "Missing Resource - nable to save record (no name)".toList)
    else none
  let record := Join [d.dir, collection, resource]
  match stat fs record with
  | .error e => .error (.os e)
  | .ok _ =>
    match osReadFile fs (record ++ dotJson) with
    | .error e => .error (.os e)
    | .ok b =>
      match codec.unmarshal b v with
      | none => .error .json
      | some v1 => .ok v1

/-- The loop of `ReadAll`: read every listed file, stop at the first failure. -/
def readAllLoop (fs : FS) (dir : Str) : List Name → List Str → Except Error (List Str)
  | [], records => .ok records
  | file :: rest, records =>
    match osReadFile fs (Join [dir, file]) with
    | .error e => .error (.os e)
    | .ok b => readAllLoop fs dir rest (records ++ [b])

/-- The method `ReadAll`.  The error of `os.ReadDir` is dropped, as in the
source: a failed listing is an empty listing. -/
def ReadAll (d : Driver) (fs : FS) (collection : Str) : Except Error (List Str) :=
  if collection = [] then .error (.errorf "Missing Collection - unable to read".toList)
  else
    let dir := Join [d.dir, collection]
    match stat fs dir with
    | .error e => .error (.os e)
    | .ok _ =>
      let files : List Name :=
        match osReadDir fs dir with
        | .ok names => names
        | .error _ => []
      readAllLoop fs dir files []

/-- The error `Delete` builds when `stat` finds nothing. -/
def notFound (path : Str) : Error :=
  .errorf ("unable to fing file or directory named ".toList ++ path ++ ['\n'])

/-- The method `Delete`, statement by statement: a directory is removed with
`os.RemoveAll` of the path, a regular file with `os.RemoveAll` of the path
with `.json` appended.  `mutex.Lock()` is the first event, the deferred
`mutex.Unlock()` the last event of every return. -/
def DeleteRun (d : Driver) (fs : FS) (collection resource : Str) : Run :=
  let path := Join [collection, resource]
  let d1 := (getOrCreatedMutex d collection).1
  let mutex := (getOrCreatedMutex d collection).2
  let t0 : List Event := [.lock mutex]
  let dir := Join [d1.dir, path]
  match stat fs dir with
  | .error _ => ⟨d1, fs, some (notFound path), t0 ++ [.unlock mutex]⟩
  | .ok .directory =>
    let r := osRemoveAll fs dir
    ⟨d1, r.1, r.2.map Error.os, t0 ++ [.removeAll dir] ++ [.unlock mutex]⟩
  | .ok .regular =>
    let r := osRemoveAll fs (dir ++ dotJson)
    ⟨d1, r.1, r.2.map Error.os, t0 ++ [.removeAll (dir ++ dotJson)] ++ [.unlock mutex]⟩

/-- The method `Delete` as its caller sees it: the driver and the file system
after the call, and the error returned. -/
def Delete (d : Driver) (fs : FS) (collection resource : Str) : Driver × FS × Option Error :=
  let r := DeleteRun d fs collection resource
  (r.driver, r.fs, r.err)

/-- A codec for Go values of type `bool`: `true` and `false` are printed as
the JSON literals; the literals decode with white space around them, and
`null` leaves the value of the caller as it is. -/
def boolCodec : Codec Bool where
  marshalIndent := fun b => some (if b then "true".toList else "false".toList)
  unmarshal := fun data v =>
    let isSpace : Char → Bool := fun c => c = ' ' || c = '\n' || c = '\t' || c = '\r'
    let body := ((data.dropWhile isSpace).reverse.dropWhile isSpace).reverse
    if body = "true".toList then some true
    else if body = "false".toList then some false
    else if body = "null".toList then some v
    else none

/-- The empty file system with the root as working directory. -/
def emptyFS : FS := { cwd := [], root := [] }

deriving instance DecidableEq for Except

/-- The driver of the demo in `main`: `New("./", nil)` on the empty file
system. -/
def demoDriver : Driver := (New emptyFS "./".toList).1

/-- A store that holds the one resource `users/John.json`. -/
def storeJohn : FS :=
  { cwd := [],
    root := [("users".toList, .dir [("John.json".toList, .file "true\n".toList)])] }

/-- A store without the directory `users` and with a regular file
`users.json` next to where it would be. -/
def storeUsersJson : FS :=
  { cwd := [], root := [("users.json".toList, .file "true\n".toList)] }

/-- A store in which `users/J` is a regular file and `users/J.json` is a
directory that holds the file `x`. -/
def storeJsonDir : FS :=
  { cwd := [],
    root := [("users".toList, .dir [("J".toList, .file "true\n".toList),
      ("J.json".toList, .dir [("x".toList, .file "false\n".toList)])])] }

/-- A store in which `users/John` is a directory and `users/John.json` is a
regular file. -/
def storeDirAndFile : FS :=
  { cwd := [],
    root := [("users".toList, .dir [("John".toList, .dir []),
      ("John.json".toList, .file "true\n".toList)])] }

/-! ## What can be observed at a location -/

/-- What a location holds, without the entries of a directory. -/
inductive Entry where
  | file (data : Str)
  | dir
  deriving DecidableEq, Repr

/-- The entry a node stands for. -/
def Node.entry : Node → Entry
  | .file data => .file data
  | .dir _ => .dir

/-- What a location of a tree holds. -/
def peek (q : Loc) (t : Node) : Except Errno Entry :=
  match walk q t with
  | .ok n => .ok n.entry
  | .error e => .error e

/-- The paths an event hands to an `os` call that changes the file system. -/
def Event.paths : Event → List Str
  | .lock _ => []
  | .unlock _ => []
  | .mkdirAll p => [p]
  | .writeFile p => [p]
  | .rename oldpath newpath => [oldpath, newpath]
  | .removeAll p => [p]

/-- The paths the `os` calls of a trace are given. -/
def tracePaths : List Event → List Str
  | [] => []
  | e :: t => e.paths ++ tracePaths t

/-- Whether a trace keeps the lock `m` around its `os` calls: read from a
state in which the lock is held or not, every `os` call comes while `m` is
held, no other lock is taken or released, and `m` is released at the end. -/
def guarded (m : Nat) : Bool → List Event → Bool
  | held, [] => !held
  | held, .lock k :: t => !held && decide (k = m) && guarded m true t
  | held, .unlock k :: t => held && decide (k = m) && guarded m false t
  | held, .mkdirAll _ :: t => held && guarded m held t
  | held, .writeFile _ :: t => held && guarded m held t
  | held, .rename _ _ :: t => held && guarded m held t
  | held, .removeAll _ :: t => held && guarded m held t

/-- The run of `Write("a/b", "c", true)` by the demo driver on the empty
store. -/
def runWriteAB : Run :=
  WriteRun boolCodec demoDriver emptyFS "a/b".toList "c".toList true

/-- The run of `Write("a", "b/c", false)` that follows `runWriteAB`. -/
def runWriteA : Run :=
  WriteRun boolCodec runWriteAB.driver runWriteAB.fs "a".toList "b/c".toList false

/-- A store in which `users/John.json` is a directory. -/
def storeJsonIsDir : FS :=
  { cwd := [],
    root := [("users".toList, .dir [("John.json".toList, .dir [])])] }

/-- Whether a path exists: `os.Stat` returns no error. -/
def pathExists (fs : FS) (p : Str) : Bool :=
  match osStat fs p with
  | .ok _ => true
  | .error _ => false

/-- The entries of the directory a walk ended in; none otherwise. -/
def dirKids : Except Errno Node → Kids
  | .ok (.dir ks) => ks
  | _ => []

/-- The stack `filepath.Clean` builds for a path. -/
def cleanStack (p : Str) : List Name :=
  (splitSlash p).foldl (cleanStep (rooted p)) []

/-- Path resolution of a list of elements from a starting stack. -/
def resolveFold (start : List Name) (xs : List Name) : List Name :=
  xs.foldl resolveStep start

/-- The stack path resolution starts from. -/
def startOf (fs : FS) (isRooted : Bool) : List Name :=
  if isRooted then [] else fs.cwd.reverse

/-- A path element that names a file or directory: not empty, without a
separator, and neither `.` nor `..`. -/
def plain (n : Name) : Prop := n ≠ [] ∧ '/' ∉ n ∧ n ≠ dot ∧ n ≠ dotdot

instance (n : Name) : Decidable (plain n) := by
  unfold plain; infer_instance

/-- The stacks `filepath.Clean` can build: names that are plain, above a run
of `..` that is empty for a rooted path. -/
def validStack (isRooted : Bool) : List Name → Prop
  | [] => True
  | n :: st => (plain n ∧ validStack isRooted st) ∨
      (n = dotdot ∧ isRooted = false ∧ ∀ m ∈ st, m = dotdot)

/-! ## Directory entries and tree walks -/

theorem lookupK_ins (ks : Kids) (c c1 : Name) (k : Node) :
    lookupK (ins ks c k) c1 = if c = c1 then some k else lookupK ks c1 := by
  induction ks with
  | nil => simp [ins, lookupK]
  | cons h r ih =>
    obtain ⟨a, x⟩ := h
    by_cases hac : a = c
    · subst hac
      by_cases h1 : a = c1 <;> simp [ins, lookupK, h1]
    · by_cases h1 : a = c1
      · subst h1
        have : ¬ c = a := fun h => hac h.symm
        simp [ins, lookupK, hac, this]
      · simp [ins, lookupK, hac, h1, ih]

theorem lookupK_del (ks : Kids) (c c1 : Name) :
    lookupK (del ks c) c1 = if c = c1 then none else lookupK ks c1 := by
  induction ks with
  | nil => simp [del, lookupK]
  | cons h r ih =>
    obtain ⟨a, x⟩ := h
    by_cases hac : a = c
    · subst hac
      by_cases h1 : a = c1
      · subst h1; simpa [del, lookupK] using ih
      · simp [del, lookupK, h1, ih]
    · by_cases h1 : a = c1
      · subst h1
        have : ¬ c = a := fun h => hac h.symm
        simp [del, lookupK, hac, this]
      · simp [del, lookupK, hac, h1, ih]

theorem ins_same (ks : Kids) (c : Name) (k : Node) (h : lookupK ks c = some k) :
    ins ks c k = ks := by
  induction ks with
  | nil => simp [lookupK] at h
  | cons hd r ih =>
    obtain ⟨a, x⟩ := hd
    by_cases hac : a = c
    · subst hac
      simp [lookupK] at h
      simp [ins, h]
    · simp [lookupK, hac] at h
      simp [ins, hac, ih h]

theorem del_absent (ks : Kids) (c : Name) (h : lookupK ks c = none) : del ks c = ks := by
  induction ks with
  | nil => rfl
  | cons hd r ih =>
    obtain ⟨a, x⟩ := hd
    by_cases hac : a = c
    · simp [lookupK, hac] at h
    · simp [lookupK, hac] at h
      simp [del, hac, ih h]

theorem walk_append (l r : Loc) (t : Node) :
    walk (l ++ r) t = match walk l t with
      | .ok n => walk r n
      | .error e => .error e := by
  induction l generalizing t with
  | nil => simp [walk]
  | cons c cs ih =>
    cases t with
    | file d => simp [walk]
    | dir ks =>
      simp only [List.cons_append, walk]
      cases lookupK ks c with
      | none => rfl
      | some k => simpa using ih k

theorem writeFileN_peek (data : Str) (l : Loc) :
    ∀ (t t1 : Node), writeFileN data l t = .ok t1 →
      ∀ q : Loc, ¬ l <+: q → peek q t1 = peek q t := by
  induction l with
  | nil => intro t t1 _ q hq; exact absurd (List.nil_prefix) hq
  | cons c cs ih =>
    intro t t1 h q hq
    cases t with
    | file d => simp [writeFileN] at h
    | dir ks =>
      cases q with
      | nil =>
        simp only [writeFileN] at h
        cases hl : lookupK ks c with
        | none =>
          simp only [hl] at h
          by_cases hcs : cs = []
          · simp [hcs] at h; subst h; simp [peek, walk, Node.entry]
          · simp [hcs] at h
        | some k =>
          simp only [hl] at h
          cases hw : writeFileN data cs k with
          | error e => simp [hw] at h
          | ok k1 => simp [hw] at h; subst h; simp [peek, walk, Node.entry]
      | cons c1 qs =>
        simp only [writeFileN] at h
        have hq1 : ¬ (c = c1 ∧ cs <+: qs) := by
          intro hh; exact hq (List.cons_prefix_cons.mpr hh)
        cases hl : lookupK ks c with
        | none =>
          simp only [hl] at h
          by_cases hcs : cs = []
          · simp [hcs] at h; subst h
            have hne : ¬ c = c1 := by
              intro hc; exact hq1 ⟨hc, by simp [hcs]⟩
            simp [peek, walk, lookupK_ins, hne]
          · simp [hcs] at h
        | some k =>
          simp only [hl] at h
          cases hw : writeFileN data cs k with
          | error e => simp [hw] at h
          | ok k1 =>
            simp [hw] at h; subst h
            by_cases hc : c = c1
            · subst hc
              have hcs : ¬ cs <+: qs := fun hh => hq1 ⟨rfl, hh⟩
              have := ih k k1 hw qs hcs
              simpa [peek, walk, lookupK_ins, hl] using this
            · simp [peek, walk, lookupK_ins, hc]

theorem writeFileN_at (data : Str) (l : Loc) :
    ∀ (t t1 : Node), writeFileN data l t = .ok t1 → walk l t1 = .ok (.file data) := by
  induction l with
  | nil =>
    intro t t1 h
    cases t with
    | file d => simp [writeFileN] at h; subst h; simp [walk]
    | dir ks => simp [writeFileN] at h
  | cons c cs ih =>
    intro t t1 h
    cases t with
    | file d => simp [writeFileN] at h
    | dir ks =>
      simp only [writeFileN] at h
      cases hl : lookupK ks c with
      | none =>
        simp only [hl] at h
        by_cases hcs : cs = []
        · simp [hcs] at h; subst h; simp [walk, lookupK_ins, hcs]
        · simp [hcs] at h
      | some k =>
        simp only [hl] at h
        cases hw : writeFileN data cs k with
        | error e => simp [hw] at h
        | ok k1 =>
          simp [hw] at h; subst h
          simpa [walk, lookupK_ins] using ih k k1 hw

theorem putN_peek (n : Node) (l : Loc) :
    ∀ (t t1 : Node), putN n l t = .ok t1 →
      ∀ q : Loc, ¬ l <+: q → peek q t1 = peek q t := by
  induction l with
  | nil => intro t t1 _ q hq; exact absurd (List.nil_prefix) hq
  | cons c cs ih =>
    intro t t1 h q hq
    cases t with
    | file d => simp [putN] at h
    | dir ks =>
      simp only [putN] at h
      cases q with
      | nil =>
        cases hl : lookupK ks c with
        | none =>
          simp only [hl] at h
          by_cases hcs : cs = []
          · simp [hcs] at h; subst h; simp [peek, walk, Node.entry]
          · simp [hcs] at h
        | some k =>
          simp only [hl] at h
          cases hw : putN n cs k with
          | error e => simp [hw] at h
          | ok k1 => simp [hw] at h; subst h; simp [peek, walk, Node.entry]
      | cons c1 qs =>
        have hq1 : ¬ (c = c1 ∧ cs <+: qs) := by
          intro hh; exact hq (List.cons_prefix_cons.mpr hh)
        cases hl : lookupK ks c with
        | none =>
          simp only [hl] at h
          by_cases hcs : cs = []
          · simp [hcs] at h; subst h
            have hne : ¬ c = c1 := by
              intro hc; exact hq1 ⟨hc, by simp [hcs]⟩
            simp [peek, walk, lookupK_ins, hne]
          · simp [hcs] at h
        | some k =>
          simp only [hl] at h
          cases hw : putN n cs k with
          | error e => simp [hw] at h
          | ok k1 =>
            simp [hw] at h; subst h
            by_cases hc : c = c1
            · subst hc
              have hcs : ¬ cs <+: qs := fun hh => hq1 ⟨rfl, hh⟩
              have := ih k k1 hw qs hcs
              simpa [peek, walk, lookupK_ins, hl] using this
            · simp [peek, walk, lookupK_ins, hc]

theorem putN_at (n : Node) (l : Loc) :
    ∀ (t t1 : Node), putN n l t = .ok t1 → walk l t1 = .ok n := by
  induction l with
  | nil =>
    intro t t1 h
    simp [putN] at h; subst h; simp [walk]
  | cons c cs ih =>
    intro t t1 h
    cases t with
    | file d => simp [putN] at h
    | dir ks =>
      simp only [putN] at h
      cases hl : lookupK ks c with
      | none =>
        simp only [hl] at h
        by_cases hcs : cs = []
        · simp [hcs] at h; subst h; simp [walk, lookupK_ins, hcs]
        · simp [hcs] at h
      | some k =>
        simp only [hl] at h
        cases hw : putN n cs k with
        | error e => simp [hw] at h
        | ok k1 =>
          simp [hw] at h; subst h
          simpa [walk, lookupK_ins] using ih k k1 hw

theorem removeN_peek (l : Loc) :
    ∀ (t t1 : Node), removeN l t = .ok t1 →
      ∀ q : Loc, ¬ l <+: q → peek q t1 = peek q t := by
  induction l with
  | nil => intro t t1 _ q hq; exact absurd (List.nil_prefix) hq
  | cons c cs ih =>
    intro t t1 h q hq
    cases t with
    | file d => simp [removeN] at h
    | dir ks =>
      cases cs with
      | nil =>
        simp [removeN] at h; subst h
        cases q with
        | nil => simp [peek, walk, Node.entry]
        | cons c1 qs =>
          have hne : ¬ c = c1 := by
            intro hc; exact hq (List.cons_prefix_cons.mpr ⟨hc, List.nil_prefix⟩)
          simp [peek, walk, lookupK_del, hne]
      | cons c2 cs2 =>
        simp only [removeN] at h
        cases hl : lookupK ks c with
        | none => simp [hl] at h; subst h; rfl
        | some k =>
          simp only [hl] at h
          cases hw : removeN (c2 :: cs2) k with
          | error e => simp [hw] at h
          | ok k1 =>
            simp [hw] at h; subst h
            cases q with
            | nil => simp [peek, walk, Node.entry]
            | cons c1 qs =>
              by_cases hc : c = c1
              · subst hc
                have hcs : ¬ (c2 :: cs2) <+: qs :=
                  fun hh => hq (List.cons_prefix_cons.mpr ⟨rfl, hh⟩)
                have := ih k k1 hw qs hcs
                simpa [peek, walk, lookupK_ins, hl] using this
              · simp [peek, walk, lookupK_ins, hc]

theorem removeN_gone (l : Loc) :
    ∀ (t t1 : Node), l ≠ [] → removeN l t = .ok t1 →
      ∀ q : Loc, l <+: q → peek q t1 = .error .ENOENT := by
  induction l with
  | nil => intro t t1 hne; exact absurd rfl hne
  | cons c cs ih =>
    intro t t1 _ h q hq
    cases t with
    | file d => simp [removeN] at h
    | dir ks =>
      cases q with
      | nil => simp at hq
      | cons c1 qs =>
        obtain ⟨hc, hcs⟩ := List.cons_prefix_cons.mp hq
        subst hc
        cases cs with
        | nil =>
          simp [removeN] at h; subst h
          simp [peek, walk, lookupK_del]
        | cons c2 cs2 =>
          simp only [removeN] at h
          cases hl : lookupK ks c with
          | none => simp [hl] at h; subst h; simp [peek, walk, hl]
          | some k =>
            simp only [hl] at h
            cases hw : removeN (c2 :: cs2) k with
            | error e => simp [hw] at h
            | ok k1 =>
              simp [hw] at h; subst h
              have := ih k k1 (by simp) hw qs hcs
              simpa [peek, walk, lookupK_ins] using this

theorem removeN_absent (l : Loc) :
    ∀ (t : Node), walk l t = .error .ENOENT → removeN l t = .ok t := by
  induction l with
  | nil => intro t h; simp [walk] at h
  | cons c cs ih =>
    intro t h
    cases t with
    | file d => simp [walk] at h
    | dir ks =>
      simp only [walk] at h
      cases cs with
      | nil =>
        cases hl : lookupK ks c with
        | none => simp [removeN, del_absent ks c hl]
        | some k => simp [hl, walk] at h
      | cons c2 cs2 =>
        cases hl : lookupK ks c with
        | none => simp [removeN, hl]
        | some k =>
          simp only [hl] at h
          simp [removeN, hl, ih k h, ins_same ks c k hl]

theorem mkdirAllN_peek (l : Loc) :
    ∀ (t t1 : Node), mkdirAllN l t = .ok t1 →
      ∀ q : Loc, ¬ q <+: l → peek q t1 = peek q t := by
  induction l with
  | nil =>
    intro t t1 h q _
    cases t with
    | file d => simp [mkdirAllN] at h
    | dir ks => simp [mkdirAllN] at h; subst h; rfl
  | cons c cs ih =>
    intro t t1 h q hq
    cases t with
    | file d => simp [mkdirAllN] at h
    | dir ks =>
      simp only [mkdirAllN] at h
      cases hw : mkdirAllN cs ((lookupK ks c).getD (.dir [])) with
      | error e => simp [hw] at h
      | ok k1 =>
        simp [hw] at h; subst h
        cases q with
        | nil => exact absurd List.nil_prefix hq
        | cons c1 qs =>
          by_cases hc : c = c1
          · subst hc
            have hcs : ¬ qs <+: cs := fun hh => hq (List.cons_prefix_cons.mpr ⟨rfl, hh⟩)
            have h1 := ih _ k1 hw qs hcs
            cases hl : lookupK ks c with
            | none =>
              rw [hl] at h1
              cases qs with
              | nil => exact absurd List.nil_prefix hcs
              | cons c3 qs3 =>
                simp only [peek, walk, lookupK_ins, hl] at h1 ⊢
                simpa [lookupK] using h1
            | some k =>
              rw [hl] at h1
              simpa [peek, walk, lookupK_ins, hl] using h1
          · simp [peek, walk, lookupK_ins, hc]

theorem mkdirAllN_at (l : Loc) :
    ∀ (t t1 : Node), mkdirAllN l t = .ok t1 →
      walk l t1 = .ok (.dir (dirKids (walk l t))) := by
  induction l with
  | nil =>
    intro t t1 h
    cases t with
    | file d => simp [mkdirAllN] at h
    | dir ks => simp [mkdirAllN] at h; subst h; simp [walk, dirKids]
  | cons c cs ih =>
    intro t t1 h
    cases t with
    | file d => simp [mkdirAllN] at h
    | dir ks =>
      simp only [mkdirAllN] at h
      cases hw : mkdirAllN cs ((lookupK ks c).getD (.dir [])) with
      | error e => simp [hw] at h
      | ok k1 =>
        simp [hw] at h; subst h
        have h1 := ih _ k1 hw
        have e1 : walk (c :: cs) (.dir (ins ks c k1)) = walk cs k1 := by
          simp [walk, lookupK_ins]
        rw [e1, h1]
        cases hl : lookupK ks c with
        | none =>
          have e2 : walk (c :: cs) (.dir ks) = .error .ENOENT := by simp [walk, hl]
          rw [e2]
          cases cs with
          | nil => simp [walk, dirKids]
          | cons c2 cs2 => simp [walk, lookupK, dirKids]
        | some k =>
          have e2 : walk (c :: cs) (.dir ks) = walk cs k := by simp [walk, hl]
          rw [e2]
          simp

theorem writeFileN_parent (data : Str) (c : Name) (D : Loc) :
    ∀ (t t1 : Node) (ks : Kids), walk D t = .ok (.dir ks) →
      writeFileN data (D ++ [c]) t = .ok t1 →
      walk D t1 = .ok (.dir (ins ks c (.file data))) := by
  induction D with
  | nil =>
    intro t t1 ks hD h
    simp [walk] at hD; subst hD
    simp only [List.nil_append, writeFileN] at h
    cases hl : lookupK ks c with
    | none => simp [hl] at h; subst h; simp [walk]
    | some k =>
      simp only [hl] at h
      cases k with
      | file d => simp [writeFileN] at h; subst h; simp [walk]
      | dir ks2 => simp [writeFileN] at h
  | cons a as ih =>
    intro t t1 ks hD h
    cases t with
    | file d => simp [walk] at hD
    | dir ks0 =>
      simp only [walk] at hD
      simp only [List.cons_append, writeFileN] at h
      cases hl : lookupK ks0 a with
      | none => simp [hl] at hD
      | some k =>
        simp only [hl] at hD h
        cases hw : writeFileN data (as ++ [c]) k with
        | error e => simp [hw] at h
        | ok k1 =>
          simp [hw] at h; subst h
          simpa [walk, lookupK_ins] using ih k k1 ks hD hw

theorem putN_parent (n : Node) (c : Name) (D : Loc) :
    ∀ (t t1 : Node) (ks : Kids), walk D t = .ok (.dir ks) →
      putN n (D ++ [c]) t = .ok t1 →
      walk D t1 = .ok (.dir (ins ks c n)) := by
  induction D with
  | nil =>
    intro t t1 ks hD h
    simp [walk] at hD; subst hD
    simp only [List.nil_append, putN] at h
    cases hl : lookupK ks c with
    | none => simp [hl] at h; subst h; simp [walk]
    | some k => simp [hl, putN] at h; subst h; simp [walk]
  | cons a as ih =>
    intro t t1 ks hD h
    cases t with
    | file d => simp [walk] at hD
    | dir ks0 =>
      simp only [walk] at hD
      simp only [List.cons_append, putN] at h
      cases hl : lookupK ks0 a with
      | none => simp [hl] at hD
      | some k =>
        simp only [hl] at hD h
        cases hw : putN n (as ++ [c]) k with
        | error e => simp [hw] at h
        | ok k1 =>
          simp [hw] at h; subst h
          simpa [walk, lookupK_ins] using ih k k1 ks hD hw

theorem removeN_parent (c : Name) (D : Loc) :
    ∀ (t t1 : Node) (ks : Kids), walk D t = .ok (.dir ks) →
      removeN (D ++ [c]) t = .ok t1 →
      walk D t1 = .ok (.dir (del ks c)) := by
  induction D with
  | nil =>
    intro t t1 ks hD h
    simp [walk] at hD; subst hD
    simp [removeN] at h; subst h; simp [walk]
  | cons a as ih =>
    intro t t1 ks hD h
    cases t with
    | file d => simp [walk] at hD
    | dir ks0 =>
      simp only [walk] at hD
      cases hl : lookupK ks0 a with
      | none => simp [hl] at hD
      | some k =>
        simp only [hl] at hD
        have hne : ∃ x xs, as ++ [c] = x :: xs := by
          cases as with
          | nil => exact ⟨c, [], rfl⟩
          | cons y ys => exact ⟨y, ys ++ [c], rfl⟩
        obtain ⟨x, xs, hx⟩ := hne
        simp only [List.cons_append, hx, removeN, hl] at h
        rw [← hx] at h
        cases hw : removeN (as ++ [c]) k with
        | error e => simp [hw] at h
        | ok k1 =>
          simp [hw] at h; subst h
          simpa [walk, lookupK_ins] using ih k k1 ks hD hw

theorem splitSlash_ne_nil (p : Str) : splitSlash p ≠ [] := by
  induction p with
  | nil => simp [splitSlash]
  | cons c cs ih =>
    simp only [splitSlash]
    split
    · simp
    · split <;> simp

theorem splitSlash_append_slash (a b : Str) :
    splitSlash (a ++ '/' :: b) = splitSlash a ++ splitSlash b := by
  induction a with
  | nil => simp [splitSlash]
  | cons c cs ih =>
    by_cases hc : c = '/'
    · simp [splitSlash, hc, ih]
    · cases hs : splitSlash cs with
      | nil => exact absurd hs (splitSlash_ne_nil cs)
      | cons h t =>
        have e1 : splitSlash (c :: (cs ++ '/' :: b)) = (c :: h) :: (t ++ splitSlash b) := by
          simp only [splitSlash, hc, if_false]
          rw [ih, hs]
          rfl
        have e2 : splitSlash (c :: cs) = (c :: h) :: t := by
          simp only [splitSlash, hc, if_false]
          rw [hs]
        rw [List.cons_append, e1, e2]
        rfl

theorem splitSlash_noSlash (n : Name) (h : '/' ∉ n) : splitSlash n = [n] := by
  induction n with
  | nil => rfl
  | cons c cs ih =>
    have hc : c ≠ '/' := fun e => h (by simp [e])
    have hcs : '/' ∉ cs := fun e => h (by simp [e])
    simp [splitSlash, hc, ih hcs]

theorem mem_splitSlash_noSlash (p : Str) : ∀ x ∈ splitSlash p, '/' ∉ x := by
  induction p with
  | nil => intro x hx; simp [splitSlash] at hx; subst hx; simp
  | cons c cs ih =>
    intro x hx
    by_cases hc : c = '/'
    · simp [splitSlash, hc] at hx
      rcases hx with hx | hx
      · subst hx; simp
      · exact ih x hx
    · simp only [splitSlash, hc, if_false] at hx
      cases hs : splitSlash cs with
      | nil => exact absurd hs (splitSlash_ne_nil cs)
      | cons h t =>
        rw [hs] at hx ih
        simp at hx
        rcases hx with hx | hx
        · subst hx
          have := ih h (by simp)
          intro hm
          simp at hm
          rcases hm with hm | hm
          · exact hc hm.symm
          · exact this hm
        · exact ih x (by simp [hx])

theorem joinSlash_snoc (xs : List Name) (n : Name) (h : xs ≠ []) :
    joinSlash (xs ++ [n]) = joinSlash xs ++ '/' :: n := by
  induction xs with
  | nil => exact absurd rfl h
  | cons a r ih =>
    cases r with
    | nil => simp [joinSlash]
    | cons b r2 =>
      have := ih (by simp)
      simp only [List.cons_append] at this ⊢
      simp [joinSlash, this]

theorem joinSlash_snoc_suffix (xs : List Name) (n s : Name) :
    joinSlash (xs ++ [n]) ++ s = joinSlash (xs ++ [n ++ s]) := by
  induction xs with
  | nil => simp [joinSlash]
  | cons a r ih =>
    cases r with
    | nil => simp [joinSlash]
    | cons b r2 =>
      simp only [List.cons_append] at ih ⊢
      simp [joinSlash, ih]

theorem splitSlash_joinSlash (xs : List Name) (hne : xs ≠ []) (h : ∀ x ∈ xs, '/' ∉ x) :
    splitSlash (joinSlash xs) = xs := by
  induction xs with
  | nil => exact absurd rfl hne
  | cons a r ih =>
    cases r with
    | nil => simpa [joinSlash] using splitSlash_noSlash a (h a (by simp))
    | cons b r2 =>
      have h1 := ih (by simp) (fun x hx => h x (by simp [hx]))
      simp only [joinSlash, splitSlash_append_slash, h1]
      simp [splitSlash_noSlash a (h a (by simp))]

theorem plain_ne_nil {n : Name} (h : plain n) : n ≠ [] := h.1

theorem plain_noSlash {n : Name} (h : plain n) : '/' ∉ n := h.2.1

theorem cleanStep_plain (r : Bool) (st : List Name) {n : Name} (h : plain n) :
    cleanStep r st n = n :: st := by
  obtain ⟨h1, _, h3, h4⟩ := h
  simp [cleanStep, h1, h3, h4]

theorem resolveStep_plain (st : List Name) {n : Name} (h : plain n) :
    resolveStep st n = n :: st := by
  obtain ⟨h1, _, h3, h4⟩ := h
  simp [resolveStep, h1, h3, h4]

theorem not_plain_dotdot : ¬ plain dotdot := fun h => h.2.2.2 rfl

theorem cleanStep_valid (r : Bool) (st : List Name) (c : Name)
    (hv : validStack r st) (hc : '/' ∉ c) : validStack r (cleanStep r st c) := by
  unfold cleanStep
  by_cases h1 : c = [] ∨ c = dot
  · simp [h1, hv]
  · simp only [h1, if_false]
    by_cases h2 : c = dotdot
    · simp only [h2, if_true]
      cases st with
      | nil =>
        cases r with
        | true => simp [validStack]
        | false => simp [validStack]
      | cons l rest =>
        by_cases h3 : l = dotdot
        · subst h3
          simp only [if_true]
          rcases hv with hv | hv
          · exact absurd hv.1 not_plain_dotdot
          · right
            refine ⟨rfl, hv.2.1, ?_⟩
            intro m hm
            simp at hm
            rcases hm with hm | hm
            · exact hm
            · exact hv.2.2 m hm
        · simp only [h3, if_false]
          rcases hv with hv | hv
          · exact hv.2
          · exact absurd hv.1 h3
    · simp only [h2, if_false]
      left
      refine ⟨⟨?_, hc, ?_, h2⟩, hv⟩
      · intro e; exact h1 (Or.inl e)
      · intro e; exact h1 (Or.inr e)

theorem cleanFold_valid (r : Bool) (xs : List Name) :
    ∀ st : List Name, validStack r st → (∀ x ∈ xs, '/' ∉ x) →
      validStack r (xs.foldl (cleanStep r) st) := by
  induction xs with
  | nil => intro st hv _; simpa using hv
  | cons x xs ih =>
    intro st hv hx
    simp only [List.foldl_cons]
    exact ih _ (cleanStep_valid r st x hv (hx x (by simp))) (fun y hy => hx y (by simp [hy]))

theorem cleanStack_valid (p : Str) : validStack (rooted p) (cleanStack p) :=
  cleanFold_valid (rooted p) (splitSlash p) [] trivial (mem_splitSlash_noSlash p)

theorem rooted_append (p q : Str) (h : p ≠ []) : rooted (p ++ q) = rooted p := by
  cases p with
  | nil => exact absurd rfl h
  | cons c cs => rfl

theorem cleanStack_append_plain (p : Str) {n : Name} (hp : p ≠ []) (hn : plain n) :
    cleanStack (p ++ '/' :: n) = n :: cleanStack p := by
  unfold cleanStack
  rw [rooted_append p _ hp, splitSlash_append_slash, splitSlash_noSlash n hn.2.1,
    List.foldl_append]
  simp [cleanStep_plain _ _ hn]

theorem Clean_append_plain (p : Str) {n : Name} (hp : p ≠ []) (hn : plain n) :
    Clean (p ++ '/' :: n) = render (rooted p) (n :: cleanStack p) := by
  have h := cleanStack_append_plain p hp hn
  unfold cleanStack at h
  unfold Clean
  rw [h, rooted_append p _ hp]
  rfl

theorem rooted_plain {n : Name} (hn : plain n) : rooted n = false := by
  cases n with
  | nil => rfl
  | cons c cs =>
    have : c ≠ '/' := fun e => hn.2.1 (by simp [e])
    simp [rooted, this]

theorem Clean_plain {n : Name} (hn : plain n) : Clean n = render false [n] := by
  unfold Clean
  rw [rooted_plain hn, splitSlash_noSlash n hn.2.1]
  simp [cleanStep_plain _ _ hn]

theorem Join_pair (p : Str) {n : Name} (hn : plain n) :
    Join [p, n] = render (rooted p) (n :: cleanStack p) := by
  by_cases hp : p = []
  · subst hp
    simp only [Join, if_true, hn.1, if_false, joinSlash]
    rw [Clean_plain hn]
    simp [rooted, cleanStack, splitSlash, cleanStep]
  · simp only [Join, hp, if_false, joinSlash]
    exact Clean_append_plain p hp hn

theorem valid_mem (r : Bool) (st : List Name) (hv : validStack r st) :
    ∀ m ∈ st, plain m ∨ m = dotdot := by
  induction st with
  | nil => intro m hm; simp at hm
  | cons n st ih =>
    intro m hm
    simp at hm
    rcases hv with hv | hv
    · rcases hm with hm | hm
      · subst hm; exact Or.inl hv.1
      · exact ih hv.2 m hm
    · rcases hm with hm | hm
      · subst hm; exact Or.inr hv.1
      · exact Or.inr (hv.2.2 m hm)

theorem valid_tail (r : Bool) (n : Name) (st : List Name) (hv : validStack r (n :: st)) :
    validStack r st := by
  rcases hv with hv | hv
  · exact hv.2
  · obtain ⟨_, hr, hall⟩ := hv
    induction st with
    | nil => trivial
    | cons m st ih =>
      right
      exact ⟨hall m (by simp), hr, fun x hx => hall x (by simp [hx])⟩

theorem valid_mem_ne_nil (r : Bool) (st : List Name) (hv : validStack r st) :
    ∀ m ∈ st, m ≠ [] := by
  intro m hm
  rcases valid_mem r st hv m hm with h | h
  · exact h.1
  · subst h; simp [dotdot]

theorem valid_mem_noSlash (r : Bool) (st : List Name) (hv : validStack r st) :
    ∀ m ∈ st, '/' ∉ m := by
  intro m hm
  rcases valid_mem r st hv m hm with h | h
  · exact h.2.1
  · subst h; simp [dotdot]

theorem joinSlash_snoc_ne_nil (xs : List Name) (n : Name) (h : n ≠ []) :
    joinSlash (xs ++ [n]) ≠ [] := by
  induction xs with
  | nil => simpa [joinSlash] using h
  | cons a r ih =>
    cases r with
    | nil => simp [joinSlash]
    | cons b r2 => simp [joinSlash]

theorem render_cons (r : Bool) (n : Name) (st : List Name) (h : n ≠ []) :
    render r (n :: st) = (if r then ['/'] else []) ++ joinSlash (st.reverse ++ [n]) := by
  have := joinSlash_snoc_ne_nil st.reverse n h
  simp [render, this]

theorem render_suffix (r : Bool) (n s : Name) (st : List Name) (h : n ≠ []) :
    render r (n :: st) ++ s = render r ((n ++ s) :: st) := by
  rw [render_cons r n st h, render_cons r (n ++ s) st (by simp [h])]
  rw [List.append_assoc, joinSlash_snoc_suffix]

theorem render_ne_nil (r : Bool) (st : List Name) : render r st ≠ [] := by
  unfold render
  simp only
  by_cases h : (if r then ['/'] else []) ++ joinSlash st.reverse = []
  · rw [if_pos h]; simp [dot]
  · rw [if_neg h]; exact h

theorem plain_append {n : Name} (s : Name) (hn : plain n) (hs : '/' ∉ s) : plain (n ++ s) := by
  obtain ⟨h1, h2, h3, h4⟩ := hn
  refine ⟨by simp [h1], ?_, ?_, ?_⟩
  · simp [h2, hs]
  · intro e
    cases n with
    | nil => exact h1 rfl
    | cons c cs =>
      simp [dot] at e
      obtain ⟨e1, e2, _⟩ := e
      subst e1; subst e2
      exact h3 rfl
  · intro e
    cases n with
    | nil => exact h1 rfl
    | cons c cs =>
      cases cs with
      | nil =>
        simp [dotdot] at e
        exact h3 (by rw [e.1]; rfl)
      | cons c2 cs2 =>
        simp [dotdot] at e
        obtain ⟨e1, e2, e3, _⟩ := e
        subst e1; subst e2; subst e3
        exact h4 rfl

theorem Join_pair_suffix (p : Str) {n : Name} (s : Name) (hn : plain n) (hs : '/' ∉ s) :
    Join [p, n] ++ s = Join [p, n ++ s] := by
  rw [Join_pair p hn, Join_pair p (plain_append s hn hs), render_suffix _ _ _ _ hn.1]

theorem joinSlash_head (xs : List Name) (a : Name) (c : Char) (cs : Str) (h : a = c :: cs) :
    ∃ rest, joinSlash (a :: xs) = c :: rest := by
  subst h
  cases xs with
  | nil => exact ⟨cs, rfl⟩
  | cons b r => exact ⟨cs ++ '/' :: joinSlash (b :: r), rfl⟩

theorem rooted_render (r : Bool) (st : List Name) (hv : validStack r st) :
    rooted (render r st) = r := by
  cases r with
  | true =>
    unfold render
    simp [rooted]
  | false =>
    cases hst : st.reverse with
    | nil =>
      have : st = [] := by simpa using hst
      subst this
      rfl
    | cons a xs =>
      have ha : a ∈ st := by
        have : a ∈ st.reverse := by simp [hst]
        simpa using this
      have hne := valid_mem_ne_nil false st hv a ha
      have hns := valid_mem_noSlash false st hv a ha
      cases a with
      | nil => exact absurd rfl hne
      | cons c cs =>
        obtain ⟨rest, hrest⟩ := joinSlash_head xs (c :: cs) c cs rfl
        have hc : c ≠ '/' := fun e => hns (by simp [e])
        unfold render
        simp [hst, hrest, rooted, hc]

theorem splitSlash_render (r : Bool) (st : List Name) (hv : validStack r st) (hne : st ≠ []) :
    splitSlash (render r st) = (if r then [[]] else []) ++ st.reverse := by
  cases st with
  | nil => exact absurd rfl hne
  | cons n st =>
    have hn : n ≠ [] := valid_mem_ne_nil r _ hv n (by simp)
    rw [render_cons r n st hn]
    have hsp : splitSlash (joinSlash (st.reverse ++ [n])) = st.reverse ++ [n] := by
      apply splitSlash_joinSlash
      · simp
      · intro x hx
        apply valid_mem_noSlash r _ hv x
        simp at hx
        rcases hx with hx | hx
        · simp [hx]
        · simp [hx]
    cases r with
    | true =>
      have := splitSlash_append_slash [] (joinSlash (st.reverse ++ [n]))
      simp only [List.nil_append] at this
      simp only [if_true, List.singleton_append]
      rw [this, hsp]
      simp [splitSlash]
    | false =>
      simp only [Bool.false_eq_true, if_false, List.nil_append]
      rw [hsp]
      simp

theorem cleanFold_reverse (r : Bool) (st : List Name) (hv : validStack r st) :
    st.reverse.foldl (cleanStep r) [] = st := by
  induction st with
  | nil => rfl
  | cons n st ih =>
    have hv1 := valid_tail r n st hv
    simp only [List.reverse_cons, List.foldl_append, List.foldl_cons, List.foldl_nil]
    rw [ih hv1]
    rcases hv with hv | hv
    · exact cleanStep_plain r st hv.1
    · obtain ⟨h1, h2, h3⟩ := hv
      subst h1; subst h2
      cases st with
      | nil => simp [cleanStep, dotdot, dot]
      | cons l rest =>
        have : l = dotdot := h3 l (by simp)
        subst this
        simp [cleanStep, dotdot, dot]

theorem cleanStack_render (r : Bool) (st : List Name) (hv : validStack r st) :
    cleanStack (render r st) = st := by
  unfold cleanStack
  rw [rooted_render r st hv]
  cases st with
  | nil =>
    cases r with
    | true => simp [render, joinSlash, splitSlash, cleanStep]
    | false => simp [render, joinSlash, splitSlash, cleanStep, dot]
  | cons n st =>
    rw [splitSlash_render r _ hv (by simp)]
    cases r with
    | true =>
      simp only [if_true, List.singleton_append, List.foldl_cons]
      have : cleanStep true [] [] = [] := by simp [cleanStep]
      rw [this]
      exact cleanFold_reverse true _ hv
    | false =>
      simp only [Bool.false_eq_true, if_false, List.nil_append]
      exact cleanFold_reverse false _ hv

theorem Clean_eq_render (p : Str) : Clean p = render (rooted p) (cleanStack p) := rfl

theorem rooted_Clean (p : Str) : rooted (Clean p) = rooted p := by
  rw [Clean_eq_render]
  exact rooted_render _ _ (cleanStack_valid p)

theorem cleanStack_Clean (p : Str) : cleanStack (Clean p) = cleanStack p := by
  rw [Clean_eq_render]
  exact cleanStack_render _ _ (cleanStack_valid p)

theorem Clean_ne_nil (p : Str) : Clean p ≠ [] := render_ne_nil _ _

theorem Join_snoc (es : List Str) {n : Name} (hn : plain n) :
    Join (es ++ [n]) = Join [Join es, n] := by
  induction es with
  | nil => simp [Join]
  | cons e es ih =>
    by_cases he : e = []
    · subst he
      simpa [Join] using ih
    · have hP : joinSlash (e :: es) ≠ [] := by
        cases es with
        | nil => simpa [joinSlash] using he
        | cons b r => simp [joinSlash, he]
      have e1 : Join (e :: es ++ [n]) = Clean (joinSlash (e :: es) ++ '/' :: n) := by
        have := joinSlash_snoc (e :: es) n (by simp)
        simp only [List.cons_append] at this
        simp [Join, he, this]
      have e2 : Join (e :: es) = Clean (joinSlash (e :: es)) := by simp [Join, he]
      rw [e1, e2, Clean_append_plain _ hP hn, Join_pair _ hn, rooted_Clean, cleanStack_Clean]

theorem resolve_def (fs : FS) (p : Str) :
    resolve fs p = (resolveFold (startOf fs (rooted p)) (splitSlash p)).reverse := rfl

theorem resolveFold_snoc (start : List Name) (xs : List Name) (c : Name) :
    resolveFold start (xs ++ [c]) = resolveStep (resolveFold start xs) c := by
  simp [resolveFold, List.foldl_append]

theorem resolveStep_clean (r : Bool) (start S : List Name) (c : Name)
    (hv : validStack r S) (hr : r = true → start = []) :
    resolveFold start (cleanStep r S c).reverse =
      resolveStep (resolveFold start S.reverse) c := by
  unfold cleanStep
  by_cases h1 : c = [] ∨ c = dot
  · simp [h1, resolveStep]
  · simp only [h1, if_false]
    by_cases h2 : c = dotdot
    · subst h2
      simp only [if_true]
      cases S with
      | nil =>
        cases r with
        | true =>
          have := hr rfl
          subst this
          simp [resolveFold, resolveStep, dotdot, dot]
        | false => simp [resolveFold]
      | cons l rest =>
        by_cases h3 : l = dotdot
        · subst h3
          simp only [if_true]
          rw [List.reverse_cons, resolveFold_snoc]
        · simp only [h3, if_false]
          have hl : plain l := by
            rcases hv with hv | hv
            · exact hv.1
            · exact absurd hv.1 h3
          rw [List.reverse_cons, resolveFold_snoc, resolveStep_plain _ hl]
          simp [resolveStep, dotdot, dot]
    · simp only [h2, if_false]
      rw [List.reverse_cons, resolveFold_snoc]

theorem resolveFold_clean (r : Bool) (start : List Name) (hr : r = true → start = [])
    (xs : List Name) :
    ∀ S : List Name, validStack r S → (∀ x ∈ xs, '/' ∉ x) →
      resolveFold start (xs.foldl (cleanStep r) S).reverse =
        resolveFold (resolveFold start S.reverse) xs := by
  induction xs with
  | nil => intro S _ _; simp [resolveFold]
  | cons x xs ih =>
    intro S hv hx
    simp only [List.foldl_cons]
    rw [ih _ (cleanStep_valid r S x hv (hx x (by simp))) (fun y hy => hx y (by simp [hy])),
      resolveStep_clean r start S x hv hr]
    simp [resolveFold]

theorem startOf_rooted (fs : FS) (r : Bool) : r = true → startOf fs r = [] := by
  intro h; simp [startOf, h]

theorem resolve_eq_stack (fs : FS) (p : Str) :
    resolve fs p = (resolveFold (startOf fs (rooted p)) (cleanStack p).reverse).reverse := by
  rw [resolve_def]
  unfold cleanStack
  rw [resolveFold_clean (rooted p) _ (startOf_rooted fs _) (splitSlash p) [] trivial
    (mem_splitSlash_noSlash p)]
  simp [resolveFold]

theorem resolve_render (fs : FS) (r : Bool) (st : List Name) (hv : validStack r st) :
    resolve fs (render r st) = (resolveFold (startOf fs r) st.reverse).reverse := by
  rw [resolve_eq_stack, rooted_render r st hv, cleanStack_render r st hv]

theorem resolve_render_cons_plain (fs : FS) (r : Bool) (st : List Name) {n : Name}
    (hv : validStack r st) (hn : plain n) :
    resolve fs (render r (n :: st)) = resolve fs (render r st) ++ [n] := by
  rw [resolve_render fs r (n :: st) (Or.inl ⟨hn, hv⟩), resolve_render fs r st hv,
    List.reverse_cons, resolveFold_snoc, resolveStep_plain _ hn]
  simp

theorem resolve_Join_pair (fs : FS) (p : Str) {n : Name} (hn : plain n) :
    resolve fs (Join [p, n]) = resolve fs p ++ [n] := by
  rw [Join_pair p hn, resolve_render_cons_plain fs _ _ (cleanStack_valid p) hn,
    resolve_render fs _ _ (cleanStack_valid p), resolve_eq_stack fs p]

theorem Join_pair_ne_nil (p : Str) {n : Name} (hn : plain n) : Join [p, n] ≠ [] := by
  rw [Join_pair p hn]
  exact render_ne_nil _ _

theorem top_withTop_dir (fs : FS) (ks : Kids) : (fs.withTop (.dir ks)).top = .dir ks := rfl

theorem cwd_withTop (fs : FS) (n : Node) : (fs.withTop n).cwd = fs.cwd := by
  cases n <;> rfl

theorem resolve_cwd (fs fs1 : FS) (h : fs1.cwd = fs.cwd) (p : Str) :
    resolve fs1 p = resolve fs p := by
  simp [resolve, h]

theorem mkdirAllN_dir (l : Loc) (ks : Kids) (n : Node) (h : mkdirAllN l (.dir ks) = .ok n) :
    ∃ ks1, n = .dir ks1 := by
  cases l with
  | nil => simp [mkdirAllN] at h; exact ⟨ks, h.symm⟩
  | cons c cs =>
    simp only [mkdirAllN] at h
    cases hw : mkdirAllN cs ((lookupK ks c).getD (.dir [])) with
    | error e => simp [hw] at h
    | ok k => simp [hw] at h; exact ⟨_, h.symm⟩

theorem writeFileN_dir (data : Str) (l : Loc) (ks : Kids) (n : Node)
    (h : writeFileN data l (.dir ks) = .ok n) : ∃ ks1, n = .dir ks1 := by
  cases l with
  | nil => simp [writeFileN] at h
  | cons c cs =>
    simp only [writeFileN] at h
    cases hl : lookupK ks c with
    | none =>
      simp only [hl] at h
      by_cases hcs : cs = []
      · simp [hcs] at h; exact ⟨_, h.symm⟩
      · simp [hcs] at h
    | some k =>
      simp only [hl] at h
      cases hw : writeFileN data cs k with
      | error e => simp [hw] at h
      | ok k1 => simp [hw] at h; exact ⟨_, h.symm⟩

theorem putN_dir (new : Node) (l : Loc) (ks : Kids) (n : Node) (hl : l ≠ [])
    (h : putN new l (.dir ks) = .ok n) : ∃ ks1, n = .dir ks1 := by
  cases l with
  | nil => exact absurd rfl hl
  | cons c cs =>
    simp only [putN] at h
    cases hl : lookupK ks c with
    | none =>
      simp only [hl] at h
      by_cases hcs : cs = []
      · simp [hcs] at h; exact ⟨_, h.symm⟩
      · simp [hcs] at h
    | some k =>
      simp only [hl] at h
      cases hw : putN new cs k with
      | error e => simp [hw] at h
      | ok k1 => simp [hw] at h; exact ⟨_, h.symm⟩

theorem removeN_dir (l : Loc) (ks : Kids) (n : Node) (h : removeN l (.dir ks) = .ok n) :
    ∃ ks1, n = .dir ks1 := by
  cases l with
  | nil => simp [removeN] at h; exact ⟨ks, h.symm⟩
  | cons c cs =>
    cases cs with
    | nil => simp [removeN] at h; exact ⟨_, h.symm⟩
    | cons c2 cs2 =>
      simp only [removeN] at h
      cases hl : lookupK ks c with
      | none => simp [hl] at h; exact ⟨_, h.symm⟩
      | some k =>
        simp only [hl] at h
        cases hw : removeN (c2 :: cs2) k with
        | error e => simp [hw] at h
        | ok k1 => simp [hw] at h; exact ⟨_, h.symm⟩

theorem osMkdirAll_ok (fs fs1 : FS) (p : Str) (h : osMkdirAll fs p = .ok fs1) :
    p ≠ [] ∧ fs1.cwd = fs.cwd ∧ mkdirAllN (resolve fs p) fs.top = .ok fs1.top := by
  unfold osMkdirAll at h
  by_cases hp : p = []
  · simp [hp] at h
  · simp only [hp, if_false] at h
    cases hw : mkdirAllN (resolve fs p) fs.top with
    | error e => simp [hw] at h
    | ok n =>
      simp [hw] at h
      obtain ⟨ks1, hn⟩ := mkdirAllN_dir _ _ _ hw
      subst hn; subst h
      exact ⟨hp, rfl, rfl⟩

theorem osWriteFile_ok (fs fs1 : FS) (p data : Str) (h : osWriteFile fs p data = .ok fs1) :
    p ≠ [] ∧ fs1.cwd = fs.cwd ∧ writeFileN data (resolve fs p) fs.top = .ok fs1.top := by
  unfold osWriteFile at h
  by_cases hp : p = []
  · simp [hp] at h
  · simp only [hp, if_false] at h
    cases hw : writeFileN data (resolve fs p) fs.top with
    | error e => simp [hw] at h
    | ok n =>
      simp [hw] at h
      obtain ⟨ks1, hn⟩ := writeFileN_dir _ _ _ _ hw
      subst hn; subst h
      exact ⟨hp, rfl, rfl⟩

theorem osRename_file_ok (fs fs1 : FS) (old new b : Str)
    (hsrc : nodeAt fs old = .ok (.file b)) (h : osRename fs old new = .ok fs1) :
    (resolve fs old = resolve fs new ∧ fs1 = fs) ∨
    (resolve fs old ≠ resolve fs new ∧ fs1.cwd = fs.cwd ∧
      ∃ n, removeN (resolve fs old) fs.top = .ok n ∧
        putN (.file b) (resolve fs new) n = .ok fs1.top) := by
  unfold osRename at h
  simp only [hsrc] at h
  by_cases hnew : new = []
  · simp [hnew] at h
  · simp only [hnew, if_false] at h
    have key :
        (if resolve fs old = resolve fs new then Except.ok fs
         else
            match removeN (resolve fs old) fs.top with
            | Except.error e => Except.error e
            | Except.ok n =>
              match putN (Node.file b) (resolve fs new) n with
              | Except.error e => Except.error e
              | Except.ok n1 => Except.ok (fs.withTop n1)) = Except.ok fs1 →
        resolve fs new ≠ [] →
        ((resolve fs old = resolve fs new ∧ fs1 = fs) ∨
          (resolve fs old ≠ resolve fs new ∧ fs1.cwd = fs.cwd ∧
            ∃ n, removeN (resolve fs old) fs.top = .ok n ∧
              putN (.file b) (resolve fs new) n = .ok fs1.top)) := by
      intro h hne
      by_cases heq : resolve fs old = resolve fs new
      · simp [heq] at h
        exact Or.inl ⟨heq, h.symm⟩
      · simp only [heq, if_false] at h
        cases hr : removeN (resolve fs old) fs.top with
        | error e => simp [hr] at h
        | ok n =>
          simp only [hr] at h
          cases hp : putN (.file b) (resolve fs new) n with
          | error e => simp [hp] at h
          | ok n1 =>
            simp [hp] at h
            obtain ⟨ks0, hn0⟩ := removeN_dir _ _ _ hr
            subst hn0
            obtain ⟨ks1, hn1⟩ := putN_dir _ _ _ _ hne hp
            subst hn1; subst h
            exact Or.inr ⟨heq, rfl, _, rfl, hp⟩
    cases hd : nodeAt fs new with
    | error e =>
      rw [hd] at h
      have hloc : resolve fs new ≠ [] := by
        intro e0
        simp [nodeAt, hnew, e0, walk] at hd
      cases e <;> first
        | exact key h hloc
        | (simp at h)
    | ok nd =>
      rw [hd] at h
      cases nd with
      | dir ks => simp at h
      | file d2 =>
        have hloc : resolve fs new ≠ [] := by
          intro e0
          simp [nodeAt, hnew, e0, walk, FS.top] at hd
        exact key h hloc

theorem walk_error (l : Loc) : ∀ (t : Node) (e : Errno), walk l t = .error e →
    e = .ENOENT ∨ e = .ENOTDIR := by
  induction l with
  | nil => intro t e h; simp [walk] at h
  | cons c cs ih =>
    intro t e h
    cases t with
    | file d => simp [walk] at h; exact Or.inr h.symm
    | dir ks =>
      simp only [walk] at h
      cases hl : lookupK ks c with
      | none => simp [hl] at h; exact Or.inl h.symm
      | some k => simp only [hl] at h; exact ih k e h

theorem walk_notdir_append (l r : Loc) (t : Node) (h : walk l t = .error .ENOTDIR) :
    walk (l ++ r) t = .error .ENOTDIR := by
  rw [walk_append, h]

theorem walk_notdir_sibling (l : Loc) (n m : Name) (t : Node)
    (h : walk (l ++ [n]) t = .error .ENOTDIR) : walk (l ++ [m]) t = .error .ENOTDIR := by
  rw [walk_append] at h ⊢
  cases hw : walk l t with
  | error e => rw [hw] at h; simpa using h
  | ok k =>
    rw [hw] at h
    cases k with
    | file d => simp [walk]
    | dir ks =>
      simp only [walk] at h
      cases hl : lookupK ks n with
      | none => simp [hl] at h
      | some k1 => simp [hl] at h

theorem walk_notdir_tail (X : List Name) (m : Name) (t : Node)
    (h : walk X.tail.reverse t = .error .ENOTDIR) :
    walk (X.reverse ++ [m]) t = .error .ENOTDIR := by
  cases X with
  | nil => simp [walk] at h
  | cons a X1 =>
    simp only [List.tail_cons] at h
    simp only [List.reverse_cons, List.append_assoc]
    exact walk_notdir_append _ _ t h

theorem plain_dotJson : plain dotJson := by decide

theorem plain_dot_dotJson : plain (dot ++ dotJson) := by decide

theorem plain_dotdot_dotJson : plain (dotdot ++ dotJson) := by decide

theorem noSlash_dotJson : '/' ∉ dotJson := by decide

theorem noSlash_dotTmp : '/' ∉ dotTmp := by decide

theorem Join_cases (es : List Str) : Join es = [] ∨ ∃ P, Join es = Clean P := by
  induction es with
  | nil => exact Or.inl rfl
  | cons e es ih =>
    by_cases he : e = []
    · simpa [Join, he] using ih
    · exact Or.inr ⟨joinSlash (e :: es), by simp [Join, he]⟩

theorem nodeAt_of_ne (fs : FS) (p : Str) (h : p ≠ []) :
    nodeAt fs p = walk (resolve fs p) fs.top := by
  simp [nodeAt, h]

theorem render_notdir_json (fs : FS) (r : Bool) (st : List Name) (hv : validStack r st)
    (h : walk (resolve fs (render r st)) fs.top = .error .ENOTDIR) :
    walk (resolve fs (render r st ++ dotJson)) fs.top = .error .ENOTDIR := by
  cases st with
  | nil =>
    cases r with
    | true =>
      have e1 : render true [] ++ dotJson = render true [dotJson] := by decide
      rw [e1, resolve_render_cons_plain fs true [] trivial plain_dotJson]
      exact walk_notdir_append _ _ _ h
    | false =>
      have e1 : render false [] ++ dotJson = render false [dot ++ dotJson] := by decide
      rw [e1, resolve_render_cons_plain fs false [] trivial plain_dot_dotJson]
      exact walk_notdir_append _ _ _ h
  | cons n st1 =>
    have hn : n ≠ [] := valid_mem_ne_nil r _ hv n (by simp)
    have hv1 := valid_tail r n st1 hv
    rw [render_suffix r n dotJson st1 hn]
    rcases hv with hv | hv
    · rw [resolve_render_cons_plain fs r st1 hv1 hv.1] at h
      rw [resolve_render_cons_plain fs r st1 hv1 (plain_append dotJson hv.1 noSlash_dotJson)]
      exact walk_notdir_sibling _ _ _ _ h
    · obtain ⟨h1, h2, h3⟩ := hv
      subst h1; subst h2
      rw [resolve_render_cons_plain fs false st1 hv1 plain_dotdot_dotJson,
        resolve_render fs false st1 hv1]
      rw [resolve_render fs false (dotdot :: st1) (Or.inr ⟨rfl, rfl, h3⟩),
        List.reverse_cons, resolveFold_snoc] at h
      have e2 : resolveStep (resolveFold (startOf fs false) st1.reverse) dotdot
          = (resolveFold (startOf fs false) st1.reverse).tail := by
        simp [resolveStep, dotdot, dot]
      rw [e2] at h
      exact walk_notdir_tail _ _ _ h

theorem nodeAt_notdir_json (fs : FS) (es : List Str)
    (h : nodeAt fs (Join es) = .error .ENOTDIR) :
    nodeAt fs (Join es ++ dotJson) = .error .ENOTDIR := by
  rcases Join_cases es with h0 | ⟨P, hP⟩
  · rw [h0] at h; simp [nodeAt] at h
  · rw [hP] at h ⊢
    have hne : Clean P ≠ [] := Clean_ne_nil P
    rw [nodeAt_of_ne fs _ hne] at h
    rw [nodeAt_of_ne fs _ (by simp [hne])]
    rw [Clean_eq_render] at h ⊢
    exact render_notdir_json fs _ _ (cleanStack_valid P) h

theorem Write_eq {V : Type} (codec : Codec V) (d : Driver) (fs : FS)
    (collection resource : Str) (v : V) :
    Write codec d fs collection resource v =
      match osMkdirAll fs (Join [(getOrCreatedMutex d collection).1.dir, collection]) with
      | .error e => ((getOrCreatedMutex d collection).1, fs, some (.os e))
      | .ok fs1 =>
        match codec.marshalIndent v with
        | none => ((getOrCreatedMutex d collection).1, fs1, some .json)
        | some b =>
          match osWriteFile fs1
            (Join [Join [(getOrCreatedMutex d collection).1.dir, collection],
              resource ++ dotJson] ++ dotTmp) (b ++ ['\n']) with
          | .error e => ((getOrCreatedMutex d collection).1, fs1, some (.os e))
          | .ok fs2 =>
            match osRename fs2
              (Join [Join [(getOrCreatedMutex d collection).1.dir, collection],
                resource ++ dotJson] ++ dotTmp)
              (Join [Join [(getOrCreatedMutex d collection).1.dir, collection],
                resource ++ dotJson]) with
            | .error e => ((getOrCreatedMutex d collection).1, fs2, some (.os e))
            | .ok fs3 => ((getOrCreatedMutex d collection).1, fs3, none) := by
  unfold Write WriteRun
  simp only
  cases osMkdirAll fs (Join [(getOrCreatedMutex d collection).1.dir, collection]) with
  | error e => rfl
  | ok fs1 =>
    simp only
    cases codec.marshalIndent v with
    | none => rfl
    | some b =>
      simp only
      cases osWriteFile fs1 _ _ with
      | error e => rfl
      | ok fs2 =>
        simp only
        cases osRename fs2 _ _ with
        | error e => rfl
        | ok fs3 => rfl

theorem Delete_eq (d : Driver) (fs : FS) (collection resource : Str) :
    Delete d fs collection resource =
      match stat fs (Join [(getOrCreatedMutex d collection).1.dir,
          Join [collection, resource]]) with
      | .error _ => ((getOrCreatedMutex d collection).1, fs,
          some (notFound (Join [collection, resource])))
      | .ok .directory =>
        ((getOrCreatedMutex d collection).1,
          (osRemoveAll fs (Join [(getOrCreatedMutex d collection).1.dir,
            Join [collection, resource]])).1,
          (osRemoveAll fs (Join [(getOrCreatedMutex d collection).1.dir,
            Join [collection, resource]])).2.map Error.os)
      | .ok .regular =>
        ((getOrCreatedMutex d collection).1,
          (osRemoveAll fs (Join [(getOrCreatedMutex d collection).1.dir,
            Join [collection, resource]] ++ dotJson)).1,
          (osRemoveAll fs (Join [(getOrCreatedMutex d collection).1.dir,
            Join [collection, resource]] ++ dotJson)).2.map Error.os) := by
  unfold Delete DeleteRun
  simp only
  cases stat fs (Join [(getOrCreatedMutex d collection).1.dir,
      Join [collection, resource]]) with
  | error e => rfl
  | ok m => cases m <;> rfl

theorem getOrCreatedMutex_dir (d : Driver) (c : Str) : (getOrCreatedMutex d c).1.dir = d.dir := by
  unfold getOrCreatedMutex
  cases lookupMutex d.mutexes c <;> rfl

theorem Write_success {V : Type} (codec : Codec V) (d : Driver) (fs : FS) (C R : Str) (v : V)
    (hw : (Write codec d fs C R v).2.2 = none) :
    ∃ b fs1 fs2 fs3, codec.marshalIndent v = some b ∧
      osMkdirAll fs (Join [d.dir, C]) = .ok fs1 ∧
      osWriteFile fs1 (Join [Join [d.dir, C], R ++ dotJson] ++ dotTmp) (b ++ ['\n']) = .ok fs2 ∧
      osRename fs2 (Join [Join [d.dir, C], R ++ dotJson] ++ dotTmp)
        (Join [Join [d.dir, C], R ++ dotJson]) = .ok fs3 ∧
      (Write codec d fs C R v).2.1 = fs3 := by
  rw [Write_eq] at hw ⊢
  simp only [getOrCreatedMutex_dir] at hw ⊢
  cases h1 : osMkdirAll fs (Join [d.dir, C]) with
  | error e => simp [h1] at hw
  | ok fs1 =>
    simp only [h1] at hw ⊢
    cases h2 : codec.marshalIndent v with
    | none => simp [h2] at hw
    | some b =>
      simp only [h2] at hw ⊢
      cases h3 : osWriteFile fs1 (Join [Join [d.dir, C], R ++ dotJson] ++ dotTmp) (b ++ ['\n']) with
      | error e => simp [h3] at hw
      | ok fs2 =>
        simp only [h3] at hw ⊢
        cases h4 : osRename fs2 (Join [Join [d.dir, C], R ++ dotJson] ++ dotTmp)
            (Join [Join [d.dir, C], R ++ dotJson]) with
        | error e => simp [h4] at hw
        | ok fs3 => exact ⟨b, fs1, fs2, fs3, rfl, rfl, h3, h4, rfl⟩

theorem Write_dir {V : Type} (codec : Codec V) (d : Driver) (fs : FS) (C R : Str) (v : V) :
    (Write codec d fs C R v).1.dir = d.dir := by
  rw [Write_eq]
  cases osMkdirAll fs (Join [(getOrCreatedMutex d C).1.dir, C]) with
  | error e => exact getOrCreatedMutex_dir d C
  | ok fs1 =>
    simp only
    cases codec.marshalIndent v with
    | none => exact getOrCreatedMutex_dir d C
    | some b =>
      simp only
      cases osWriteFile fs1 _ _ with
      | error e => exact getOrCreatedMutex_dir d C
      | ok fs2 =>
        simp only
        cases osRename fs2 _ _ with
        | error e => exact getOrCreatedMutex_dir d C
        | ok fs3 => exact getOrCreatedMutex_dir d C

theorem nodeAt_after_write_rename (fs1 fs2 fs3 : FS) (tmp fnl data : Str)
    (h3 : osWriteFile fs1 tmp data = .ok fs2) (h4 : osRename fs2 tmp fnl = .ok fs3) :
    nodeAt fs3 fnl = .ok (.file data) := by
  obtain ⟨htmp, hcwd, hwf⟩ := osWriteFile_ok _ _ _ _ h3
  have hsrc : nodeAt fs2 tmp = .ok (.file data) := by
    rw [nodeAt_of_ne fs2 tmp htmp, resolve_cwd fs1 fs2 hcwd]
    exact writeFileN_at data _ _ _ hwf
  have hfnl : fnl ≠ [] := by
    intro e
    unfold osRename at h4
    simp [hsrc, e] at h4
  rw [nodeAt_of_ne fs3 fnl hfnl]
  rcases osRename_file_ok fs2 fs3 tmp fnl data hsrc h4 with ⟨heq, hfs⟩ | ⟨_, hc, n, _, hput⟩
  · subst hfs
    rw [← heq, ← nodeAt_of_ne fs3 tmp htmp]
    exact hsrc
  · rw [resolve_cwd fs2 fs3 hc]
    exact putN_at _ _ _ _ hput

theorem Read_of_file {V : Type} (codec : Codec V) (d : Driver) (fs : FS) (C R : Str) (v0 : V)
    (data : Str) (h : nodeAt fs (Join [d.dir, C, R] ++ dotJson) = .ok (.file data)) :
    Read codec d fs C R v0 =
      match codec.unmarshal data v0 with
      | none => .error .json
      | some v1 => .ok v1 := by
  have hrf : osReadFile fs (Join [d.dir, C, R] ++ dotJson) = .ok data := by
    simp [osReadFile, h]
  have hst : ∃ m, stat fs (Join [d.dir, C, R]) = .ok m := by
    unfold stat osStat
    cases hn : nodeAt fs (Join [d.dir, C, R]) with
    | ok n => exact ⟨_, rfl⟩
    | error e =>
      cases e with
      | ENOENT => simp only [h]; exact ⟨_, rfl⟩
      | ENOTDIR =>
        have := nodeAt_notdir_json fs _ hn
        rw [h] at this
        cases this
      | EISDIR =>
        exfalso
        have hne : Join [d.dir, C, R] ≠ [] := by
          intro e0; rw [e0] at hn; simp [nodeAt] at hn
        rw [nodeAt_of_ne _ _ hne] at hn
        rcases walk_error _ _ _ hn with h1 | h1 <;> cases h1
      | EEXIST =>
        exfalso
        have hne : Join [d.dir, C, R] ≠ [] := by
          intro e0; rw [e0] at hn; simp [nodeAt] at hn
        rw [nodeAt_of_ne _ _ hne] at hn
        rcases walk_error _ _ _ hn with h1 | h1 <;> cases h1
      | EINVAL =>
        exfalso
        have hne : Join [d.dir, C, R] ≠ [] := by
          intro e0; rw [e0] at hn; simp [nodeAt] at hn
        rw [nodeAt_of_ne _ _ hne] at hn
        rcases walk_error _ _ _ hn with h1 | h1 <;> cases h1
      | EBUSY =>
        exfalso
        have hne : Join [d.dir, C, R] ≠ [] := by
          intro e0; rw [e0] at hn; simp [nodeAt] at hn
        rw [nodeAt_of_ne _ _ hne] at hn
        rcases walk_error _ _ _ hn with h1 | h1 <;> cases h1
  obtain ⟨m, hm⟩ := hst
  unfold Read
  simp only [hm, hrf]

/-! ## The claims of the specification -/

/-- C1 (counterexample): on the empty store `Write("users", ".", true)`
succeeds, and the `Read("users", ".")` that follows fails with a not-found
error: `Write` renamed into `users/..json`, `Read` opens `users.json`. -/
theorem C1_round_trip_fails_for_dot :
    "users".toList ≠ [] ∧ ".".toList ≠ [] ∧
    boolCodec.marshalIndent true = some "true".toList ∧
    (Write boolCodec demoDriver emptyFS "users".toList ".".toList true).2.2 = none ∧
    Read boolCodec (Write boolCodec demoDriver emptyFS "users".toList ".".toList true).1
      (Write boolCodec demoDriver emptyFS "users".toList ".".toList true).2.1
      "users".toList ".".toList false = .error (.os .ENOENT) := by
  decide

/-- C1 (amended): for every store state, every collection C, resource R and
value V that serialises to JSON, when the path `Write` renames into,
`Join(Join(base, C), R + ".json")`, is the path `Read` opens,
`Join(base, C, R) + ".json"`, and `Write(C, R, V)` returns success, then the
file at that path holds exactly the indented serialisation of V plus a
newline, and an immediately following `Read(C, R)` returns success with the
value these bytes decode to, which is V for a codec that round-trips. -/
theorem C1_write_read_round_trip {V : Type} (codec : Codec V) (d : Driver) (fs : FS)
    (C R : Str) (v v0 : V) (b : Str)
    (hpath : Join [Join [d.dir, C], R ++ dotJson] = Join [d.dir, C, R] ++ dotJson)
    (hm : codec.marshalIndent v = some b)
    (hrt : codec.unmarshal (b ++ ['\n']) v0 = some v)
    (hw : (Write codec d fs C R v).2.2 = none) :
    osReadFile (Write codec d fs C R v).2.1 (Join [d.dir, C, R] ++ dotJson)
      = .ok (b ++ ['\n']) ∧
    Read codec (Write codec d fs C R v).1 (Write codec d fs C R v).2.1 C R v0 = .ok v := by
  obtain ⟨b1, fs1, fs2, fs3, hb, _, h3, h4, hfs⟩ := Write_success codec d fs C R v hw
  rw [hm] at hb
  cases hb
  have hnode := nodeAt_after_write_rename fs1 fs2 fs3 _ _ _ h3 h4
  rw [hpath] at hnode
  rw [hfs]
  refine ⟨by simp [osReadFile, hnode], ?_⟩
  have hd := Write_dir codec d fs C R v
  have hnode1 : nodeAt fs3 (Join [(Write codec d fs C R v).1.dir, C, R] ++ dotJson)
      = .ok (.file (b ++ ['\n'])) := by rw [hd]; exact hnode
  rw [Read_of_file codec _ fs3 C R v0 _ hnode1, hrt]

/-- C1 (witness): the demo driver, the empty store, collection `users`,
resource `John` and the value `true`. -/
theorem C1_write_read_round_trip_witness :
    osReadFile (Write boolCodec demoDriver emptyFS "users".toList "John".toList true).2.1
      (Join [demoDriver.dir, "users".toList, "John".toList] ++ dotJson)
      = .ok ("true".toList ++ ['\n']) ∧
    Read boolCodec (Write boolCodec demoDriver emptyFS "users".toList "John".toList true).1
      (Write boolCodec demoDriver emptyFS "users".toList "John".toList true).2.1
      "users".toList "John".toList false = .ok true :=
  C1_write_read_round_trip boolCodec demoDriver emptyFS "users".toList "John".toList
    true false "true".toList (by decide) (by decide) (by decide) (by decide)

/-- C3 (the code at the failing inputs): on the empty store
`Write("", "x", true)` and `Write("c", "", true)` both return no error, and
afterwards the files `x.json` and `c/.json` hold the serialised value: the
validation errors are built and dropped, nothing is rejected. -/
theorem C3_write_accepts_empty_names :
    (Write boolCodec demoDriver emptyFS [] "x".toList true).2.2 = none ∧
    osReadFile (Write boolCodec demoDriver emptyFS [] "x".toList true).2.1 "x.json".toList
      = .ok "true\n".toList ∧
    (Write boolCodec demoDriver emptyFS "c".toList [] true).2.2 = none ∧
    osReadFile (Write boolCodec demoDriver emptyFS "c".toList [] true).2.1 "c/.json".toList
      = .ok "true\n".toList := by
  decide

/-- C4 (counterexample): in the store that holds `users/John.json` as a
regular file with valid JSON and no bare path `users/John`, `Read("users",
"John")` returns the value and `Read("users", "John.json")` returns a
not-found error. -/
theorem C4_read_with_suffix_fails :
    osReadFile storeJohn "users/John.json".toList = .ok "true\n".toList ∧
    boolCodec.unmarshal "true\n".toList false = some true ∧
    osStat storeJohn "users/John".toList = .error .ENOENT ∧
    Read boolCodec demoDriver storeJohn "users".toList "John".toList false = .ok true ∧
    Read boolCodec demoDriver storeJohn "users".toList ("John".toList ++ dotJson) false
      = .error (.os .ENOENT) := by
  decide

/-- C4 (amended): for every store in which the resource is the regular file
`Join(base, C, R) + ".json"` holding valid JSON, and no bare path exists,
`Read(C, R)` returns success and decodes that file; `Read(C, R + ".json")`
opens `Join(base, C, R + ".json") + ".json"`, and returns an error when that
path does not exist. -/
theorem C4_read_suffix {V : Type} (codec : Codec V) (d : Driver) (fs : FS)
    (C R : Str) (v0 v1 : V) (data : Str)
    (hfile : osReadFile fs (Join [d.dir, C, R] ++ dotJson) = .ok data)
    (hdec : codec.unmarshal data v0 = some v1)
    (_hbare : osStat fs (Join [d.dir, C, R]) = .error .ENOENT)
    (hno : osStat fs (Join [d.dir, C, R ++ dotJson] ++ dotJson) = .error .ENOENT) :
    Read codec d fs C R v0 = .ok v1 ∧
    ∃ e, Read codec d fs C (R ++ dotJson) v0 = .error (.os e) := by
  constructor
  · have hnode : nodeAt fs (Join [d.dir, C, R] ++ dotJson) = .ok (.file data) := by
      unfold osReadFile at hfile
      cases hn : nodeAt fs (Join [d.dir, C, R] ++ dotJson) with
      | error e => simp [hn] at hfile
      | ok n =>
        cases n with
        | dir ks => simp [hn] at hfile
        | file d2 => simp [hn] at hfile; rw [hfile]
    rw [Read_of_file codec d fs C R v0 data hnode, hdec]
  · have hrf : ∃ e, osReadFile fs (Join [d.dir, C, R ++ dotJson] ++ dotJson) = .error e := by
      unfold osStat at hno
      unfold osReadFile
      cases hn : nodeAt fs (Join [d.dir, C, R ++ dotJson] ++ dotJson) with
      | error e => exact ⟨e, rfl⟩
      | ok n => simp [hn] at hno
    obtain ⟨e, he⟩ := hrf
    unfold Read
    simp only
    cases hs : stat fs (Join [d.dir, C, R ++ dotJson]) with
    | error e1 => exact ⟨e1, rfl⟩
    | ok m => exact ⟨e, by simp [he]⟩

/-- C4 (witness): the store that holds `users/John.json`. -/
theorem C4_read_suffix_witness :
    Read boolCodec demoDriver storeJohn "users".toList "John".toList false = .ok true ∧
    ∃ e, Read boolCodec demoDriver storeJohn "users".toList ("John".toList ++ dotJson) false
      = .error (.os e) :=
  C4_read_suffix boolCodec demoDriver storeJohn "users".toList "John".toList false true
    "true\n".toList (by decide) (by decide) (by decide) (by decide)

/-- C6 (counterexample): in a store without the directory `users` but with
a regular file `users.json`, `ReadAll("users")` returns success with an empty
list. -/
theorem C6_readAll_missing_returns_empty :
    "users".toList ≠ [] ∧
    osStat storeUsersJson (Join [demoDriver.dir, "users".toList]) = .error .ENOENT ∧
    ReadAll demoDriver storeUsersJson "users".toList = .ok [] := by
  decide

/-- C6 (amended): for every store state and non-empty collection C such that
neither `<base>/C` nor `<base>/C.json` exists, `ReadAll(C)` returns the
not-found error of `os.Stat` and no record list. -/
theorem C6_readAll_missing (d : Driver) (fs : FS) (C : Str) (hC : C ≠ [])
    (hdir : osStat fs (Join [d.dir, C]) = .error .ENOENT)
    (hjson : osStat fs (Join [d.dir, C] ++ dotJson) = .error .ENOENT) :
    ReadAll d fs C = .error (.os .ENOENT) := by
  unfold ReadAll
  simp [hC, stat, hdir, hjson]

/-- C6 (witness): the empty store and the collection `users`. -/
theorem C6_readAll_missing_witness :
    ReadAll demoDriver emptyFS "users".toList = .error (.os .ENOENT) :=
  C6_readAll_missing demoDriver emptyFS "users".toList (by decide) (by decide) (by decide)

theorem osRemoveAll_ok (fs fs1 : FS) (p : Str) (h : osRemoveAll fs p = (fs1, none)) :
    (p = [] ∧ fs1 = fs) ∨
    (p ≠ [] ∧ resolve fs p ≠ [] ∧ fs1.cwd = fs.cwd ∧
      removeN (resolve fs p) fs.top = .ok fs1.top) := by
  unfold osRemoveAll at h
  by_cases hp : p = []
  · simp [hp] at h
    exact Or.inl ⟨hp, h.symm⟩
  · simp only [hp, if_false] at h
    by_cases hd : endsWithDot p = true
    · simp [hd] at h
    · simp only [hd] at h
      by_cases hl : resolve fs p = []
      · simp [hl] at h
      · simp only [hl, if_false] at h
        cases hr : removeN (resolve fs p) fs.top with
        | error e => simp [hr] at h
        | ok n =>
          simp [hr] at h
          obtain ⟨ks1, hn⟩ := removeN_dir _ _ _ hr
          subst hn; subst h
          exact Or.inr ⟨hp, hl, rfl, rfl⟩

theorem osStat_error (fs : FS) (p : Str) (e : Errno) :
    osStat fs p = .error e ↔ nodeAt fs p = .error e := by
  unfold osStat
  cases nodeAt fs p <;> simp

theorem osStat_ok (fs : FS) (p : Str) (m : FileMode) :
    osStat fs p = .ok m ↔ ∃ n, nodeAt fs p = .ok n ∧ n.mode = m := by
  unfold osStat
  cases nodeAt fs p <;> simp

theorem nodeAt_error_cases (fs : FS) (p : Str) (e : Errno) (h : nodeAt fs p = .error e) :
    e = .ENOENT ∨ e = .ENOTDIR := by
  by_cases hp : p = []
  · simp [nodeAt, hp] at h; exact Or.inl h.symm
  · rw [nodeAt_of_ne fs p hp] at h
    exact walk_error _ _ _ h

theorem peek_eq_of_walk (q : Loc) (t : Node) (n : Node) (h : walk q t = .ok n) :
    peek q t = .ok n.entry := by
  simp [peek, h]

theorem walk_file_of_peek (q : Loc) (t : Node) (data : Str) (h : peek q t = .ok (.file data)) :
    walk q t = .ok (.file data) := by
  unfold peek at h
  cases hw : walk q t with
  | error e => simp [hw] at h
  | ok n =>
    cases n with
    | dir ks => simp [hw, Node.entry] at h
    | file d2 => simp [hw, Node.entry] at h; rw [h]

theorem walk_error_of_peek (q : Loc) (t : Node) (e : Errno) (h : peek q t = .error e) :
    walk q t = .error e := by
  unfold peek at h
  cases hw : walk q t with
  | error e1 => simp [hw] at h; rw [h]
  | ok n => simp [hw] at h

theorem peek_error_of_walk (q : Loc) (t : Node) (e : Errno) (h : walk q t = .error e) :
    peek q t = .error e := by
  simp [peek, h]

/-- C5 (counterexample): in a store where `users/J` is a regular file and
`users/J.json` is a directory holding the file `x`, `Delete("users", "J")`
resolves to the regular file and returns success, and afterwards the other
file `users/J.json/x` is gone. -/
theorem C5_delete_removes_other_file :
    stat storeJsonDir (Join [demoDriver.dir, Join ["users".toList, "J".toList]])
      = .ok .regular ∧
    (Delete demoDriver storeJsonDir "users".toList "J".toList).2.2 = none ∧
    osReadFile storeJsonDir "users/J.json/x".toList = .ok "false\n".toList ∧
    osReadFile (Delete demoDriver storeJsonDir "users".toList "J".toList).2.1
      "users/J.json/x".toList = .error .ENOENT := by
  decide

/-- C5 (amended): for every store state and C and R, if `Delete(C, R)`
resolves (bare path first, else path + ".json") to a regular file and returns
success, then afterwards `<base>/C/R.json` does not exist, and every location
that is neither `<base>/C/R.json` nor beneath it holds exactly what it held
before the call. -/
theorem C5_delete_file_frame (d : Driver) (fs : FS) (C R : Str)
    (hreg : stat fs (Join [d.dir, Join [C, R]]) = .ok .regular)
    (hok : (Delete d fs C R).2.2 = none) :
    osStat (Delete d fs C R).2.1 (Join [d.dir, Join [C, R]] ++ dotJson) = .error .ENOENT ∧
    ∀ q : Loc, ¬ resolve fs (Join [d.dir, Join [C, R]] ++ dotJson) <+: q →
      peek q (Delete d fs C R).2.1.top = peek q fs.top := by
  rw [Delete_eq] at hok ⊢
  simp only [getOrCreatedMutex_dir, hreg] at hok ⊢
  cases hr : osRemoveAll fs (Join [d.dir, Join [C, R]] ++ dotJson) with
  | mk fs1 oe =>
    rw [hr] at hok
    simp only at hok ⊢
    cases oe with
    | some e => simp at hok
    | none =>
      rcases osRemoveAll_ok fs fs1 _ hr with ⟨hp, _⟩ | ⟨hp, hl, hc, hrem⟩
      · simp [dotJson] at hp
      · constructor
        · rw [osStat_error, nodeAt_of_ne fs1 _ hp, resolve_cwd fs fs1 hc]
          exact walk_error_of_peek _ _ _
            (removeN_gone _ _ _ hl hrem _ (List.prefix_refl _))
        · intro q hq
          exact removeN_peek _ _ _ hrem q hq

/-- C5 (witness): deleting `users/John` from the store that holds
`users/John.json`; the directory `users` is observed afterwards. -/
theorem C5_delete_file_frame_witness :
    osStat (Delete demoDriver storeJohn "users".toList "John".toList).2.1
      (Join [demoDriver.dir, Join ["users".toList, "John".toList]] ++ dotJson)
      = .error .ENOENT ∧
    peek ["users".toList] (Delete demoDriver storeJohn "users".toList "John".toList).2.1.top
      = peek ["users".toList] storeJohn.top :=
  ⟨(C5_delete_file_frame demoDriver storeJohn "users".toList "John".toList
      (by decide) (by decide)).1,
   (C5_delete_file_frame demoDriver storeJohn "users".toList "John".toList
      (by decide) (by decide)).2 ["users".toList] (by decide)⟩

theorem pathExists_false (fs : FS) (p : Str) (h : pathExists fs p = false) :
    ∃ e, nodeAt fs p = .error e := by
  unfold pathExists osStat at h
  cases hn : nodeAt fs p with
  | error e => exact ⟨e, rfl⟩
  | ok n => simp [hn] at h

theorem pathExists_true (fs : FS) (p : Str) (h : pathExists fs p = true) :
    ∃ n, nodeAt fs p = .ok n := by
  unfold pathExists osStat at h
  cases hn : nodeAt fs p with
  | error e => simp [hn] at h
  | ok n => exact ⟨n, rfl⟩

theorem stat_ok_of_exists (fs : FS) (es : List Str)
    (h : pathExists fs (Join es) = true ∨ pathExists fs (Join es ++ dotJson) = true) :
    ∃ m, stat fs (Join es) = .ok m := by
  unfold stat osStat
  cases hn : nodeAt fs (Join es) with
  | ok n => exact ⟨_, rfl⟩
  | error e =>
    have h2 : pathExists fs (Join es ++ dotJson) = true := by
      rcases h with h | h
      · obtain ⟨n, hn1⟩ := pathExists_true _ _ h
        rw [hn] at hn1; cases hn1
      · exact h
    obtain ⟨n, hn2⟩ := pathExists_true _ _ h2
    rcases nodeAt_error_cases fs _ e hn with he | he
    · subst he
      simp only [hn2]
      exact ⟨_, rfl⟩
    · subst he
      have := nodeAt_notdir_json fs es hn
      rw [hn2] at this
      cases this

/-- C7: for every store state and every C and R, when neither `<base>/C/R`
nor `<base>/C/R.json` exists, `Delete(C, R)` returns its not-found error and
the file system is unchanged; and when one of the two paths exists,
`Delete(C, R)` does not return that not-found error. -/
theorem C7_delete_missing (d : Driver) (fs : FS) (C R : Str) :
    (pathExists fs (Join [d.dir, Join [C, R]]) = false →
      pathExists fs (Join [d.dir, Join [C, R]] ++ dotJson) = false →
      (Delete d fs C R).2.1 = fs ∧
      (Delete d fs C R).2.2 = some (notFound (Join [C, R]))) ∧
    (pathExists fs (Join [d.dir, Join [C, R]]) = true ∨
        pathExists fs (Join [d.dir, Join [C, R]] ++ dotJson) = true →
      (Delete d fs C R).2.2 ≠ some (notFound (Join [C, R]))) := by
  constructor
  · intro h1 h2
    obtain ⟨e1, he1⟩ := pathExists_false _ _ h1
    obtain ⟨e2, he2⟩ := pathExists_false _ _ h2
    have hst : ∃ e, stat fs (Join [d.dir, Join [C, R]]) = .error e := by
      unfold stat osStat
      simp only [he1]
      cases e1 <;> first
        | exact ⟨_, rfl⟩
        | (simp only [he2]; exact ⟨_, rfl⟩)
    obtain ⟨e, he⟩ := hst
    rw [Delete_eq]
    simp [getOrCreatedMutex_dir, he]
  · intro h
    obtain ⟨m, hm⟩ := stat_ok_of_exists fs _ h
    rw [Delete_eq]
    simp only [getOrCreatedMutex_dir, hm]
    cases m with
    | regular =>
      simp only
      cases (osRemoveAll fs (Join [d.dir, Join [C, R]] ++ dotJson)).2 <;> simp [notFound]
    | directory =>
      simp only
      cases (osRemoveAll fs (Join [d.dir, Join [C, R]])).2 <;> simp [notFound]

/-- C7 (witness): `Delete("users", "John")` on the empty store, where
neither path exists, and on the store that holds `users/John.json`. -/
theorem C7_delete_missing_witness :
    ((Delete demoDriver emptyFS "users".toList "John".toList).2.1 = emptyFS ∧
      (Delete demoDriver emptyFS "users".toList "John".toList).2.2
        = some (notFound (Join ["users".toList, "John".toList]))) ∧
    (Delete demoDriver storeJohn "users".toList "John".toList).2.2
        ≠ some (notFound (Join ["users".toList, "John".toList])) :=
  ⟨(C7_delete_missing demoDriver emptyFS "users".toList "John".toList).1
      (by decide) (by decide),
   (C7_delete_missing demoDriver storeJohn "users".toList "John".toList).2
      (Or.inr (by decide))⟩

theorem Delete_dir (d : Driver) (fs : FS) (C R : Str) : (Delete d fs C R).1.dir = d.dir := by
  rw [Delete_eq]
  cases stat fs (Join [(getOrCreatedMutex d C).1.dir, Join [C, R]]) with
  | error e => exact getOrCreatedMutex_dir d C
  | ok m => cases m <;> exact getOrCreatedMutex_dir d C

theorem Read_error_of_no_file {V : Type} (codec : Codec V) (d : Driver) (fs : FS)
    (C R : Str) (v0 : V)
    (h : ∀ data, nodeAt fs (Join [d.dir, C, R] ++ dotJson) ≠ .ok (.file data)) :
    ∃ e, Read codec d fs C R v0 = .error e := by
  unfold Read
  simp only
  cases stat fs (Join [d.dir, C, R]) with
  | error e => exact ⟨_, rfl⟩
  | ok m =>
    simp only [osReadFile]
    cases hn : nodeAt fs (Join [d.dir, C, R] ++ dotJson) with
    | error e => exact ⟨_, rfl⟩
    | ok n =>
      cases n with
      | dir ks => exact ⟨_, rfl⟩
      | file data => exact absurd hn (h data)

theorem no_file_after_remove (fs fs1 : FS) (p q : Str) (hq : q ≠ [])
    (hr : osRemoveAll fs p = (fs1, none))
    (h : ∀ data, nodeAt fs q ≠ .ok (.file data)) :
    ∀ data, nodeAt fs1 q ≠ .ok (.file data) := by
  rcases osRemoveAll_ok fs fs1 p hr with ⟨_, hfs⟩ | ⟨_, hl, hc, hrem⟩
  · subst hfs; exact h
  · intro data hn
    rw [nodeAt_of_ne fs1 q hq, resolve_cwd fs fs1 hc] at hn
    by_cases hpre : resolve fs p <+: resolve fs q
    · have := removeN_gone _ _ _ hl hrem _ hpre
      rw [peek_eq_of_walk _ _ _ hn] at this
      cases this
    · have := removeN_peek _ _ _ hrem _ hpre
      rw [peek_eq_of_walk _ _ _ hn] at this
      have hw := walk_file_of_peek _ _ data this.symm
      rw [← nodeAt_of_ne fs q hq] at hw
      exact h data hw

/-- C10 (counterexample): in a store where `users/John` is a directory and
`users/John.json` is a regular file with valid JSON, `Delete("users",
"John")` removes the directory and returns success, and the `Read("users",
"John")` that follows returns success. -/
theorem C10_read_succeeds_after_delete :
    "users".toList ≠ [] ∧ "John".toList ≠ [] ∧
    (Delete demoDriver storeDirAndFile "users".toList "John".toList).2.2 = none ∧
    Read boolCodec (Delete demoDriver storeDirAndFile "users".toList "John".toList).1
      (Delete demoDriver storeDirAndFile "users".toList "John".toList).2.1
      "users".toList "John".toList false = .ok true := by
  decide

/-- C10 (amended): for every store state and every C and R for which the
path `Delete` resolves, `Join(base, Join(C, R))`, is the path `Read`
resolves, `Join(base, C, R)`: if `Delete(C, R)` returns success, then an
immediately following `Read(C, R)` returns an error, except when before the
call the bare path was a directory and the path with `.json` a regular
file. -/
theorem C10_delete_then_read {V : Type} (codec : Codec V) (d : Driver) (fs : FS)
    (C R : Str) (v0 : V)
    (hpath : Join [d.dir, Join [C, R]] = Join [d.dir, C, R])
    (hok : (Delete d fs C R).2.2 = none)
    (hex : ¬ (osStat fs (Join [d.dir, C, R]) = .ok .directory ∧
      osStat fs (Join [d.dir, C, R] ++ dotJson) = .ok .regular)) :
    ∃ e, Read codec (Delete d fs C R).1 (Delete d fs C R).2.1 C R v0 = .error e := by
  apply Read_error_of_no_file
  rw [Delete_dir]
  rw [Delete_eq] at hok ⊢
  simp only [getOrCreatedMutex_dir, hpath] at hok ⊢
  have hjne : Join [d.dir, C, R] ++ dotJson ≠ [] := by simp [dotJson]
  cases hs : stat fs (Join [d.dir, C, R]) with
  | error e => simp [hs] at hok
  | ok m =>
    simp only [hs] at hok ⊢
    cases m with
    | regular =>
      simp only at hok ⊢
      cases hr : osRemoveAll fs (Join [d.dir, C, R] ++ dotJson) with
      | mk fs1 oe =>
        rw [hr] at hok
        simp only at hok ⊢
        cases oe with
        | some e => simp at hok
        | none =>
          rcases osRemoveAll_ok fs fs1 _ hr with ⟨hp, _⟩ | ⟨_, hl, hc, hrem⟩
          · exact absurd hp hjne
          · intro data hn
            rw [nodeAt_of_ne fs1 _ hjne, resolve_cwd fs fs1 hc] at hn
            have := removeN_gone _ _ _ hl hrem _ (List.prefix_refl _)
            rw [peek_eq_of_walk _ _ _ hn] at this
            cases this
    | directory =>
      simp only at hok ⊢
      cases hr : osRemoveAll fs (Join [d.dir, C, R]) with
      | mk fs1 oe =>
        rw [hr] at hok
        simp only at hok ⊢
        cases oe with
        | some e => simp at hok
        | none =>
          apply no_file_after_remove fs fs1 _ _ hjne hr
          intro data hn
          have hjson : osStat fs (Join [d.dir, C, R] ++ dotJson) = .ok .regular := by
            rw [osStat_ok]; exact ⟨_, hn, rfl⟩
          unfold stat at hs
          cases hb : osStat fs (Join [d.dir, C, R]) with
          | ok m1 =>
            rw [hb] at hs
            simp at hs
            subst hs
            exact hex ⟨hb, hjson⟩
          | error e =>
            rw [hb] at hs
            cases e <;> simp [hjson] at hs

/-- C10 (witness): deleting `users/John` from the store that holds
`users/John.json`. -/
theorem C10_delete_then_read_witness :
    ∃ e, Read boolCodec (Delete demoDriver storeJohn "users".toList "John".toList).1
      (Delete demoDriver storeJohn "users".toList "John".toList).2.1
      "users".toList "John".toList false = .error e :=
  C10_delete_then_read boolCodec demoDriver storeJohn "users".toList "John".toList false
    (by decide) (by decide) (by decide)

theorem osStat_congr (fs fs1 : FS) (p : Str) (hc : fs1.cwd = fs.cwd)
    (h : peek (resolve fs p) fs1.top = peek (resolve fs p) fs.top) :
    osStat fs1 p = osStat fs p := by
  unfold osStat nodeAt
  by_cases hp : p = []
  · simp [hp]
  · simp only [hp, if_false, resolve_cwd fs fs1 hc]
    unfold peek at h
    cases h1 : walk (resolve fs p) fs1.top with
    | error e1 =>
      cases h2 : walk (resolve fs p) fs.top with
      | error e2 => simp [h1, h2] at h; simp [h]
      | ok n2 => simp [h1, h2] at h
    | ok n1 =>
      cases h2 : walk (resolve fs p) fs.top with
      | error e2 => simp [h1, h2] at h
      | ok n2 =>
        simp [h1, h2] at h
        cases n1 <;> cases n2 <;> simp [Node.entry] at h <;> simp [Node.mode]

theorem osReadFile_congr (fs fs1 : FS) (p : Str) (hc : fs1.cwd = fs.cwd)
    (h : peek (resolve fs p) fs1.top = peek (resolve fs p) fs.top) :
    osReadFile fs1 p = osReadFile fs p := by
  unfold osReadFile nodeAt
  by_cases hp : p = []
  · simp [hp]
  · simp only [hp, if_false, resolve_cwd fs fs1 hc]
    unfold peek at h
    cases h1 : walk (resolve fs p) fs1.top with
    | error e1 =>
      cases h2 : walk (resolve fs p) fs.top with
      | error e2 => simp [h1, h2] at h; simp [h]
      | ok n2 => simp [h1, h2] at h
    | ok n1 =>
      cases h2 : walk (resolve fs p) fs.top with
      | error e2 => simp [h1, h2] at h
      | ok n2 =>
        simp [h1, h2] at h
        cases n1 <;> cases n2 <;> simp [Node.entry] at h <;> simp [h]

theorem Read_congr {V : Type} (codec : Codec V) (d d1 : Driver) (fs fs1 : FS) (C R : Str)
    (v0 : V) (hd : d1.dir = d.dir) (hc : fs1.cwd = fs.cwd)
    (h1 : peek (resolve fs (Join [d.dir, C, R])) fs1.top
      = peek (resolve fs (Join [d.dir, C, R])) fs.top)
    (h2 : peek (resolve fs (Join [d.dir, C, R] ++ dotJson)) fs1.top
      = peek (resolve fs (Join [d.dir, C, R] ++ dotJson)) fs.top) :
    Read codec d1 fs1 C R v0 = Read codec d fs C R v0 := by
  unfold Read stat
  simp only [hd, osStat_congr fs fs1 _ hc h1, osStat_congr fs fs1 _ hc h2,
    osReadFile_congr fs fs1 _ hc h2]

theorem not_snoc_prefix (D : Loc) (a : Name) : ¬ (D ++ [a]) <+: D := by
  intro h
  have := h.length_le
  simp at this

theorem not_snoc_prefix_snoc (D : Loc) (a b : Name) (hab : a ≠ b) :
    ¬ (D ++ [a]) <+: (D ++ [b]) := by
  intro h
  have heq := h.eq_of_length (by simp)
  have := List.append_cancel_left heq
  simp at this
  exact hab this

theorem Write_error_frame {V : Type} (codec : Codec V) (d : Driver) (fs : FS) (C R : Str)
    (v : V) (herr : (Write codec d fs C R v).2.2 ≠ none) :
    (Write codec d fs C R v).2.1.cwd = fs.cwd ∧
    ∀ q : Loc, ¬ q <+: resolve fs (Join [d.dir, C]) →
      ¬ resolve fs (Join [Join [d.dir, C], R ++ dotJson] ++ dotTmp) <+: q →
      peek q (Write codec d fs C R v).2.1.top = peek q fs.top := by
  rw [Write_eq] at herr ⊢
  simp only [getOrCreatedMutex_dir] at herr ⊢
  cases h1 : osMkdirAll fs (Join [d.dir, C]) with
  | error e => exact ⟨rfl, fun q _ _ => rfl⟩
  | ok fs1 =>
    obtain ⟨_, hc1, hmk⟩ := osMkdirAll_ok _ _ _ h1
    simp only [h1] at herr ⊢
    cases h2 : codec.marshalIndent v with
    | none => exact ⟨hc1, fun q hq _ => mkdirAllN_peek _ _ _ hmk q hq⟩
    | some b =>
      simp only [h2] at herr ⊢
      cases h3 : osWriteFile fs1 (Join [Join [d.dir, C], R ++ dotJson] ++ dotTmp)
          (b ++ ['\n']) with
      | error e => exact ⟨hc1, fun q hq _ => mkdirAllN_peek _ _ _ hmk q hq⟩
      | ok fs2 =>
        obtain ⟨_, hc2, hwf⟩ := osWriteFile_ok _ _ _ _ h3
        simp only [h3] at herr ⊢
        cases h4 : osRename fs2 (Join [Join [d.dir, C], R ++ dotJson] ++ dotTmp)
            (Join [Join [d.dir, C], R ++ dotJson]) with
        | ok fs3 => simp [h4] at herr
        | error e =>
          refine ⟨hc2.trans hc1, fun q hq hq2 => ?_⟩
          rw [resolve_cwd fs fs1 hc1] at hwf
          rw [writeFileN_peek _ _ _ _ hwf q hq2]
          exact mkdirAllN_peek _ _ _ hmk q hq

theorem Join3_plain (b C : Str) {R : Name} (hR : plain R) :
    Join [b, C, R] = Join [Join [b, C], R] :=
  Join_snoc [b, C] hR

theorem final_path_of_plain (b C : Str) {R : Name} (hR : plain R) :
    Join [Join [b, C], R ++ dotJson] = Join [b, C, R] ++ dotJson := by
  rw [Join3_plain b C hR]
  exact (Join_pair_suffix _ dotJson hR noSlash_dotJson).symm

theorem append_ne_self (a s : Str) (hs : s ≠ []) : a ++ s ≠ a := by
  intro h
  have := congrArg List.length h
  simp at this
  exact hs this

theorem append_append_ne (a s t : Str) (ht : t ≠ []) : a ++ s ++ t ≠ a ++ s :=
  append_ne_self (a ++ s) t ht

theorem json_tmp_ne (a : Str) : a ++ dotJson ++ dotTmp ≠ a := by
  intro h
  have := congrArg List.length h
  simp [dotJson, dotTmp] at this

/-- C2 (counterexample): on the empty store `Write("x.json/c", "../../x",
true)` returns an error, because `MkdirAll` has created the final path
`x.json` as a directory and the rename onto it is refused; the final path did
not exist before the call and exists after it, and `Read` of the same names
fails differently before and after. -/
theorem C2_failed_write_changes_final_path :
    Join [Join [demoDriver.dir, "x.json/c".toList], "../../x".toList ++ dotJson]
      = "x.json".toList ∧
    (Write boolCodec demoDriver emptyFS "x.json/c".toList "../../x".toList true).2.2
      = some (.os .EEXIST) ∧
    osStat emptyFS "x.json".toList = .error .ENOENT ∧
    osStat (Write boolCodec demoDriver emptyFS "x.json/c".toList "../../x".toList true).2.1
      "x.json".toList = .ok .directory ∧
    Read boolCodec demoDriver emptyFS "x.json/c".toList "../../x".toList false
      = .error (.os .ENOENT) ∧
    Read boolCodec
      (Write boolCodec demoDriver emptyFS "x.json/c".toList "../../x".toList true).1
      (Write boolCodec demoDriver emptyFS "x.json/c".toList "../../x".toList true).2.1
      "x.json/c".toList "../../x".toList false = .error (.os .EISDIR) := by
  decide

/-- C2 (amended): for every store state, every C and V, and every R that is
a single path element other than `.` and `..`: if `Write(C, R, V)` returns an
error, then the existence and the content of the final file
`<base>/C/R.json` are the same as before the call, and `Read(C, R)` gives
the same result as before the call.  The temp path `<final>.tmp` is never
the final path, as a string or as a location, and every location that is
neither a directory on the way to `<base>/C` nor the temp path or beneath it
holds what it held before the call. -/
theorem C2_write_error_keeps_final {V : Type} (codec : Codec V) (d : Driver) (fs : FS)
    (C R : Str) (v v0 : V) (hR : plain R)
    (herr : (Write codec d fs C R v).2.2 ≠ none) :
    osStat (Write codec d fs C R v).2.1 (Join [Join [d.dir, C], R ++ dotJson])
      = osStat fs (Join [Join [d.dir, C], R ++ dotJson]) ∧
    osReadFile (Write codec d fs C R v).2.1 (Join [Join [d.dir, C], R ++ dotJson])
      = osReadFile fs (Join [Join [d.dir, C], R ++ dotJson]) ∧
    Read codec (Write codec d fs C R v).1 (Write codec d fs C R v).2.1 C R v0
      = Read codec d fs C R v0 ∧
    Join [Join [d.dir, C], R ++ dotJson] ++ dotTmp ≠ Join [Join [d.dir, C], R ++ dotJson] ∧
    resolve fs (Join [Join [d.dir, C], R ++ dotJson] ++ dotTmp)
      ≠ resolve fs (Join [Join [d.dir, C], R ++ dotJson]) ∧
    ∀ q : Loc, ¬ q <+: resolve fs (Join [d.dir, C]) →
      ¬ resolve fs (Join [Join [d.dir, C], R ++ dotJson] ++ dotTmp) <+: q →
      peek q (Write codec d fs C R v).2.1.top = peek q fs.top := by
  obtain ⟨hc, hframe⟩ := Write_error_frame codec d fs C R v herr
  have hRj : plain (R ++ dotJson) := plain_append dotJson hR noSlash_dotJson
  have hfnl : resolve fs (Join [Join [d.dir, C], R ++ dotJson])
      = resolve fs (Join [d.dir, C]) ++ [R ++ dotJson] := resolve_Join_pair fs _ hRj
  have htmp : resolve fs (Join [Join [d.dir, C], R ++ dotJson] ++ dotTmp)
      = resolve fs (Join [d.dir, C]) ++ [R ++ dotJson ++ dotTmp] := by
    rw [Join_pair_suffix _ dotTmp hRj noSlash_dotTmp]
    exact resolve_Join_pair fs _ (plain_append dotTmp hRj noSlash_dotTmp)
  have hrec : Join [d.dir, C, R] = Join [Join [d.dir, C], R] := Join3_plain _ _ hR
  have hrecl : resolve fs (Join [d.dir, C, R]) = resolve fs (Join [d.dir, C]) ++ [R] := by
    rw [hrec]; exact resolve_Join_pair fs _ hR
  have hrecj : Join [d.dir, C, R] ++ dotJson = Join [Join [d.dir, C], R ++ dotJson] := by
    rw [hrec]; exact Join_pair_suffix _ dotJson hR noSlash_dotJson
  have hne1 : R ++ dotJson ++ dotTmp ≠ R ++ dotJson :=
    append_append_ne R dotJson dotTmp (by simp [dotTmp])
  have hne2 : R ++ dotJson ++ dotTmp ≠ R := json_tmp_ne R
  have pk1 : peek (resolve fs (Join [Join [d.dir, C], R ++ dotJson]))
      (Write codec d fs C R v).2.1.top
      = peek (resolve fs (Join [Join [d.dir, C], R ++ dotJson])) fs.top := by
    apply hframe
    · rw [hfnl]; exact not_snoc_prefix _ _
    · rw [hfnl, htmp]; exact not_snoc_prefix_snoc _ _ _ hne1
  have pk2 : peek (resolve fs (Join [d.dir, C, R])) (Write codec d fs C R v).2.1.top
      = peek (resolve fs (Join [d.dir, C, R])) fs.top := by
    apply hframe
    · rw [hrecl]; exact not_snoc_prefix _ _
    · rw [hrecl, htmp]; exact not_snoc_prefix_snoc _ _ _ hne2
  refine ⟨osStat_congr fs _ _ hc pk1, osReadFile_congr fs _ _ hc pk1, ?_, ?_, ?_, hframe⟩
  · apply Read_congr codec d _ fs _ C R v0 (Write_dir codec d fs C R v) hc pk2
    rw [hrecj]; exact pk1
  · exact append_ne_self _ _ (by simp [dotTmp])
  · rw [hfnl, htmp]
    intro h
    have := List.append_cancel_left h
    simp [dotTmp] at this

/-- C2 (witness): `Write("users", "J", true)` in the store where
`users/J.json` is a directory, so that the rename fails. -/
theorem C2_write_error_keeps_final_witness :
    (Write boolCodec demoDriver storeJsonDir "users".toList "J".toList true).2.2 ≠ none ∧
    osStat (Write boolCodec demoDriver storeJsonDir "users".toList "J".toList true).2.1
      (Join [Join [demoDriver.dir, "users".toList], "J".toList ++ dotJson])
      = osStat storeJsonDir (Join [Join [demoDriver.dir, "users".toList], "J".toList ++ dotJson]) ∧
    Read boolCodec (Write boolCodec demoDriver storeJsonDir "users".toList "J".toList true).1
      (Write boolCodec demoDriver storeJsonDir "users".toList "J".toList true).2.1
      "users".toList "J".toList false
      = Read boolCodec demoDriver storeJsonDir "users".toList "J".toList false :=
  ⟨by decide,
   (C2_write_error_keeps_final boolCodec demoDriver storeJsonDir "users".toList "J".toList
      true false (by decide) (by decide)).1,
   (C2_write_error_keeps_final boolCodec demoDriver storeJsonDir "users".toList "J".toList
      true false (by decide) (by decide)).2.2.1⟩

theorem sortNames_eq_nil (ns : List Name) (h : sortNames ns = []) : ns = [] := by
  cases ns with
  | nil => rfl
  | cons n r =>
    simp only [sortNames] at h
    cases hs : sortNames r with
    | nil => simp [hs, insertName] at h
    | cons m ms =>
      simp only [hs, insertName] at h
      split at h <;> simp at h

theorem kidNames_eq_nil (ks : Kids) (h : kidNames ks = []) : ks = [] := by
  cases ks with
  | nil => rfl
  | cons k r => obtain ⟨a, x⟩ := k; simp [kidNames] at h

theorem dirKids_of_absent_or_empty (fs : FS) (p : Str) (hp : p ≠ [])
    (h : osStat fs p = .error .ENOENT ∨ osReadDir fs p = .ok []) :
    dirKids (walk (resolve fs p) fs.top) = [] := by
  rcases h with h | h
  · rw [osStat_error, nodeAt_of_ne fs p hp] at h
    simp [h, dirKids]
  · unfold osReadDir at h
    rw [nodeAt_of_ne fs p hp] at h
    cases hw : walk (resolve fs p) fs.top with
    | error e => simp [dirKids]
    | ok n =>
      cases n with
      | file d => simp [dirKids]
      | dir ks =>
        simp [hw] at h
        have := kidNames_eq_nil ks (sortNames_eq_nil _ h)
        simp [dirKids, this]

/-- C8 (counterexample): on the empty store, where the base directory is
empty, `Write("", "John", true)` succeeds and the `ReadAll("")` that follows
returns the missing-collection error instead of one blob. -/
theorem C8_readAll_rejects_empty_collection :
    osReadDir emptyFS (Join [demoDriver.dir, []]) = .ok [] ∧
    plain "John".toList ∧
    (Write boolCodec demoDriver emptyFS [] "John".toList true).2.2 = none ∧
    ReadAll (Write boolCodec demoDriver emptyFS [] "John".toList true).1
      (Write boolCodec demoDriver emptyFS [] "John".toList true).2.1 []
      = .error (.errorf "Missing Collection - unable to read".toList) := by
  decide

/-- C8 (amended): for every store in which the collection directory
`<base>/C` is absent or empty, every non-empty collection C, every resource
name R that is a single path element other than `.` and `..`, and every
serialisable value V: after a successful `Write(C, R, V)` the listing of the
collection directory is the one name `R.json`, with no temporary file, and
`ReadAll(C)` succeeds and returns exactly one blob, the indented
serialisation of V followed by a newline. -/
theorem C8_readAll_after_write {V : Type} (codec : Codec V) (d : Driver) (fs : FS)
    (C R : Str) (v : V) (b : Str) (hC : C ≠ []) (hR : plain R)
    (hempty : osStat fs (Join [d.dir, C]) = .error .ENOENT ∨
      osReadDir fs (Join [d.dir, C]) = .ok [])
    (hm : codec.marshalIndent v = some b)
    (hw : (Write codec d fs C R v).2.2 = none) :
    osReadDir (Write codec d fs C R v).2.1 (Join [d.dir, C]) = .ok [R ++ dotJson] ∧
    ReadAll (Write codec d fs C R v).1 (Write codec d fs C R v).2.1 C
      = .ok [b ++ ['\n']] := by
  obtain ⟨b1, fs1, fs2, fs3, hb, h1, h3, h4, hfs⟩ := Write_success codec d fs C R v hw
  rw [hm] at hb
  cases hb
  obtain ⟨hdne, hc1, hmk⟩ := osMkdirAll_ok _ _ _ h1
  obtain ⟨htne, hc2, hwf⟩ := osWriteFile_ok _ _ _ _ h3
  have hRj : plain (R ++ dotJson) := plain_append dotJson hR noSlash_dotJson
  have hfnl : resolve fs (Join [Join [d.dir, C], R ++ dotJson])
      = resolve fs (Join [d.dir, C]) ++ [R ++ dotJson] := resolve_Join_pair fs _ hRj
  have htmp : resolve fs (Join [Join [d.dir, C], R ++ dotJson] ++ dotTmp)
      = resolve fs (Join [d.dir, C]) ++ [R ++ dotJson ++ dotTmp] := by
    rw [Join_pair_suffix _ dotTmp hRj noSlash_dotTmp]
    exact resolve_Join_pair fs _ (plain_append dotTmp hRj noSlash_dotTmp)
  -- the directory after `MkdirAll`
  have hD1 : walk (resolve fs (Join [d.dir, C])) fs1.top = .ok (.dir []) := by
    rw [mkdirAllN_at _ _ _ hmk, dirKids_of_absent_or_empty fs _ hdne hempty]
  -- the directory after `WriteFile`
  rw [resolve_cwd fs fs1 hc1, htmp] at hwf
  have hD2 := writeFileN_parent _ _ _ _ _ _ hD1 hwf
  -- the rename
  have hsrc : nodeAt fs2 (Join [Join [d.dir, C], R ++ dotJson] ++ dotTmp)
      = .ok (.file (b ++ ['\n'])) := by
    rw [nodeAt_of_ne fs2 _ htne, resolve_cwd fs1 fs2 hc2, resolve_cwd fs fs1 hc1, htmp]
    exact writeFileN_at _ _ _ _ hwf
  have hr12 : ∀ p, resolve fs2 p = resolve fs p := fun p => by
    rw [resolve_cwd fs1 fs2 hc2, resolve_cwd fs fs1 hc1]
  have hD3 : fs3.cwd = fs.cwd ∧ walk (resolve fs (Join [d.dir, C])) fs3.top
      = .ok (.dir [(R ++ dotJson, .file (b ++ ['\n']))]) := by
    rcases osRename_file_ok fs2 fs3 _ _ _ hsrc h4 with ⟨heq, _⟩ | ⟨_, hc3, n, hrem, hput⟩
    · rw [hr12, hr12, htmp, hfnl] at heq
      have := List.append_cancel_left heq
      simp [dotTmp] at this
    · rw [hr12, htmp] at hrem
      rw [hr12, hfnl] at hput
      have hDn := removeN_parent _ _ _ _ _ hD2 hrem
      have hD4 := putN_parent _ _ _ _ _ _ hDn hput
      refine ⟨by rw [hc3, hc2, hc1], ?_⟩
      rw [hD4]
      simp [ins, del]
  obtain ⟨hc3, hD3⟩ := hD3
  have hnodeD : nodeAt fs3 (Join [d.dir, C])
      = .ok (.dir [(R ++ dotJson, .file (b ++ ['\n']))]) := by
    rw [nodeAt_of_ne fs3 _ hdne, resolve_cwd fs fs3 hc3]; exact hD3
  have hnodeF := nodeAt_after_write_rename fs1 fs2 fs3 _ _ _ h3 h4
  have hdir : osReadDir fs3 (Join [d.dir, C]) = .ok [R ++ dotJson] := by
    simp [osReadDir, hnodeD, kidNames, sortNames, insertName]
  rw [hfs]
  refine ⟨hdir, ?_⟩
  have hd := Write_dir codec d fs C R v
  unfold ReadAll
  simp only [hC, if_false, hd]
  have hst : stat fs3 (Join [d.dir, C]) = .ok .directory := by
    simp [stat, osStat, hnodeD, Node.mode]
  simp only [hst, hdir, readAllLoop]
  have hrf : osReadFile fs3 (Join [Join [d.dir, C], R ++ dotJson]) = .ok (b ++ ['\n']) := by
    simp [osReadFile, hnodeF]
  simp [hrf]

/-- C8 (witness): the demo of `main`: collection `users`, resource `John`,
on the empty store. -/
theorem C8_readAll_after_write_witness :
    osReadDir (Write boolCodec demoDriver emptyFS "users".toList "John".toList true).2.1
      (Join [demoDriver.dir, "users".toList]) = .ok ["John".toList ++ dotJson] ∧
    ReadAll (Write boolCodec demoDriver emptyFS "users".toList "John".toList true).1
      (Write boolCodec demoDriver emptyFS "users".toList "John".toList true).2.1
      "users".toList = .ok ["true".toList ++ ['\n']] :=
  C8_readAll_after_write boolCodec demoDriver emptyFS "users".toList "John".toList true
    "true".toList (by decide) (by decide) (Or.inl (by decide)) (by decide) (by decide)

theorem Clean_Clean (p : Str) : Clean (Clean p) = Clean p := by
  rw [Clean_eq_render (Clean p), rooted_Clean, cleanStack_Clean]
  rfl

theorem cleanStack_plain {n : Name} (hn : plain n) : cleanStack n = [n] := by
  unfold cleanStack
  rw [splitSlash_noSlash n hn.2.1]
  simp [cleanStep_plain _ _ hn]

theorem Join_plain_pair {C R : Name} (hC : plain C) (hR : plain R) :
    Join [C, R] = C ++ '/' :: R := by
  rw [Join_pair C hR, rooted_plain hC, cleanStack_plain hC, render_cons false R [C] hR.1]
  simp [joinSlash]

theorem Join_nested (b : Str) {C R : Name} (hC : plain C) (hR : plain R) :
    Join [b, Join [C, R]] = Join [b, C, R] := by
  by_cases hb : b = []
  · subst hb
    have hne : Join [C, R] ≠ [] := Join_pair_ne_nil C hR
    have e1 : Join [[], Join [C, R]] = Clean (Join [C, R]) := by
      generalize Join [C, R] = P at hne
      simp [Join, hne, joinSlash]
    have e2 : Join [[], C, R] = Join [C, R] := by simp [Join]
    have e3 : Join [C, R] = Clean (joinSlash [C, R]) := by simp [Join, hC.1]
    rw [e1, e2, e3, Clean_Clean]
  · have e1 : Join [b, Join [C, R]] = Clean (b ++ '/' :: Join [C, R]) := by
      generalize Join [C, R] = P
      simp [Join, hb, joinSlash]
    have e2 : Join [b, C, R] = Clean (b ++ '/' :: (C ++ '/' :: R)) := by
      simp [Join, hb, joinSlash]
    rw [e1, e2, Join_plain_pair hC hR]

theorem lookupMutex_snoc (ms : List (Str × Nat)) (c : Str) (m : Nat)
    (h : lookupMutex ms c = none) : lookupMutex (ms ++ [(c, m)]) c = some m := by
  induction ms with
  | nil => simp [lookupMutex]
  | cons hd r ih =>
    obtain ⟨k, x⟩ := hd
    by_cases hk : k = c
    · simp [lookupMutex, hk] at h
    · simp only [lookupMutex, hk, if_false] at h
      simp [lookupMutex, hk, ih h]

theorem getOrCreatedMutex_again (d : Driver) (c : Str) :
    (getOrCreatedMutex (getOrCreatedMutex d c).1 c).2 = (getOrCreatedMutex d c).2 := by
  unfold getOrCreatedMutex
  cases h : lookupMutex d.mutexes c with
  | some m => simp [h]
  | none => simp [lookupMutex_snoc _ _ _ h]

theorem lookupMutex_getOrCreated (d : Driver) (c : Str) :
    lookupMutex (getOrCreatedMutex d c).1.mutexes c = some (getOrCreatedMutex d c).2 := by
  unfold getOrCreatedMutex
  cases h : lookupMutex d.mutexes c with
  | some m => simp [h]
  | none => simp [lookupMutex_snoc _ _ _ h]

theorem WriteRun_driver {V : Type} (codec : Codec V) (d : Driver) (fs : FS) (C R : Str)
    (v : V) : (WriteRun codec d fs C R v).driver = (getOrCreatedMutex d C).1 := by
  unfold WriteRun
  simp only
  cases osMkdirAll fs _ with
  | error e => rfl
  | ok fs1 =>
    simp only
    cases codec.marshalIndent v with
    | none => rfl
    | some b =>
      simp only
      cases osWriteFile fs1 _ _ with
      | error e => rfl
      | ok fs2 =>
        simp only
        cases osRename fs2 _ _ <;> rfl

theorem DeleteRun_driver (d : Driver) (fs : FS) (C R : Str) :
    (DeleteRun d fs C R).driver = (getOrCreatedMutex d C).1 := by
  unfold DeleteRun
  simp only
  cases stat fs _ with
  | error e => rfl
  | ok m => cases m <;> rfl

theorem WriteRun_guarded {V : Type} (codec : Codec V) (d : Driver) (fs : FS) (C R : Str)
    (v : V) : guarded (getOrCreatedMutex d C).2 false (WriteRun codec d fs C R v).trace = true := by
  unfold WriteRun
  simp only
  cases osMkdirAll fs _ with
  | error e => simp [guarded]
  | ok fs1 =>
    simp only
    cases codec.marshalIndent v with
    | none => simp [guarded]
    | some b =>
      simp only
      cases osWriteFile fs1 _ _ with
      | error e => simp [guarded]
      | ok fs2 =>
        simp only
        cases osRename fs2 _ _ <;> simp [guarded]

theorem DeleteRun_guarded (d : Driver) (fs : FS) (C R : Str) :
    guarded (getOrCreatedMutex d C).2 false (DeleteRun d fs C R).trace = true := by
  unfold DeleteRun
  simp only
  cases stat fs _ with
  | error e => simp [guarded]
  | ok m => cases m <;> simp [guarded]

theorem WriteRun_paths {V : Type} (codec : Codec V) (d : Driver) (fs : FS) (C R : Str)
    (v : V) (p : Str) (hp : p ∈ tracePaths (WriteRun codec d fs C R v).trace) :
    p = Join [d.dir, C] ∨ p = Join [Join [d.dir, C], R ++ dotJson] ∨
      p = Join [Join [d.dir, C], R ++ dotJson] ++ dotTmp := by
  unfold WriteRun at hp
  simp only [getOrCreatedMutex_dir] at hp
  cases h1 : osMkdirAll fs (Join [d.dir, C]) with
  | error e =>
    simp [h1, tracePaths, Event.paths] at hp
    exact Or.inl hp
  | ok fs1 =>
    simp only [h1] at hp
    cases h2 : codec.marshalIndent v with
    | none =>
      simp [h2, tracePaths, Event.paths] at hp
      exact Or.inl hp
    | some b =>
      simp only [h2] at hp
      cases h3 : osWriteFile fs1 (Join [Join [d.dir, C], R ++ dotJson] ++ dotTmp)
          (b ++ ['\n']) with
      | error e =>
        simp [h3, tracePaths, Event.paths] at hp
        rcases hp with hp | hp
        · exact Or.inl hp
        · exact Or.inr (Or.inr hp)
      | ok fs2 =>
        simp only [h3] at hp
        cases h4 : osRename fs2 (Join [Join [d.dir, C], R ++ dotJson] ++ dotTmp)
            (Join [Join [d.dir, C], R ++ dotJson]) with
        | error e =>
          simp [h4, tracePaths, Event.paths] at hp
          rcases hp with hp | hp | hp
          · exact Or.inl hp
          · exact Or.inr (Or.inr hp)
          · exact Or.inr (Or.inl hp)
        | ok fs3 =>
          simp [h4, tracePaths, Event.paths] at hp
          rcases hp with hp | hp | hp
          · exact Or.inl hp
          · exact Or.inr (Or.inr hp)
          · exact Or.inr (Or.inl hp)

theorem DeleteRun_paths (d : Driver) (fs : FS) (C R : Str) (p : Str)
    (hp : p ∈ tracePaths (DeleteRun d fs C R).trace) :
    p = Join [d.dir, Join [C, R]] ∨ p = Join [d.dir, Join [C, R]] ++ dotJson := by
  unfold DeleteRun at hp
  simp only [getOrCreatedMutex_dir] at hp
  cases h1 : stat fs (Join [d.dir, Join [C, R]]) with
  | error e => simp [h1, tracePaths, Event.paths] at hp
  | ok m =>
    cases m with
    | regular =>
      simp [h1, tracePaths, Event.paths] at hp
      exact Or.inr hp
    | directory =>
      simp [h1, tracePaths, Event.paths] at hp
      exact Or.inl hp

theorem osRename_cwd (fs fs1 : FS) (o n : Str) (h : osRename fs o n = .ok fs1) :
    fs1.cwd = fs.cwd := by
  unfold osRename at h
  cases hs : nodeAt fs o with
  | error e => simp [hs] at h
  | ok src =>
    simp only [hs] at h
    by_cases hn : n = []
    · simp [hn] at h
    · simp only [hn, if_false] at h
      split at h
      · simp at h
      · simp at h
      · by_cases heq : resolve fs o = resolve fs n
        · simp [heq] at h; rw [← h]
        · simp only [heq, if_false] at h
          split at h
          · simp at h
          · split at h
            · simp at h
            · split at h
              · simp at h
              · simp at h; rw [← h]; exact cwd_withTop _ _

theorem osRemoveAll_cwd (fs : FS) (p : Str) : (osRemoveAll fs p).1.cwd = fs.cwd := by
  unfold osRemoveAll
  by_cases hp : p = []
  · simp [hp]
  · simp only [hp, if_false]
    by_cases hd : endsWithDot p = true
    · simp [hd]
    · simp only [hd]
      by_cases hl : resolve fs p = []
      · simp [hl]
      · simp only [hl, if_false]
        cases removeN (resolve fs p) fs.top with
        | error e => rfl
        | ok n => exact cwd_withTop _ _

theorem WriteRun_cwd {V : Type} (codec : Codec V) (d : Driver) (fs : FS) (C R : Str)
    (v : V) : (WriteRun codec d fs C R v).fs.cwd = fs.cwd := by
  unfold WriteRun
  simp only
  cases h1 : osMkdirAll fs _ with
  | error e => rfl
  | ok fs1 =>
    have c1 := (osMkdirAll_ok _ _ _ h1).2.1
    simp only
    cases codec.marshalIndent v with
    | none => exact c1
    | some b =>
      simp only
      cases h3 : osWriteFile fs1 _ _ with
      | error e => exact c1
      | ok fs2 =>
        have c2 := (osWriteFile_ok _ _ _ _ h3).2.1
        simp only
        cases h4 : osRename fs2 _ _ with
        | error e => exact c2.trans c1
        | ok fs3 => exact (osRename_cwd _ _ _ _ h4).trans (c2.trans c1)

theorem DeleteRun_cwd (d : Driver) (fs : FS) (C R : Str) :
    (DeleteRun d fs C R).fs.cwd = fs.cwd := by
  unfold DeleteRun
  simp only
  cases stat fs _ with
  | error e => rfl
  | ok m => cases m <;> exact osRemoveAll_cwd _ _

theorem collection_path_resolve (fs : FS) (b : Str) {C R : Name} (hC : plain C)
    (hR : plain R) (p : Str)
    (hp : p = Join [b, C] ∨ p = Join [Join [b, C], R ++ dotJson] ∨
      p = Join [Join [b, C], R ++ dotJson] ++ dotTmp ∨
      p = Join [b, Join [C, R]] ∨ p = Join [b, Join [C, R]] ++ dotJson) :
    ∃ xs, resolve fs p = resolve fs (Join [b]) ++ C :: xs := by
  have hRj : plain (R ++ dotJson) := plain_append dotJson hR noSlash_dotJson
  have hdir : resolve fs (Join [b, C]) = resolve fs (Join [b]) ++ [C] := by
    have : Join [b, C] = Join [Join [b], C] := Join_snoc [b] hC
    rw [this]; exact resolve_Join_pair fs _ hC
  have hfnl : resolve fs (Join [Join [b, C], R ++ dotJson])
      = resolve fs (Join [b]) ++ C :: [R ++ dotJson] := by
    rw [resolve_Join_pair fs _ hRj, hdir]; simp
  have hdel : Join [b, Join [C, R]] = Join [Join [b, C], R] := by
    rw [Join_nested b hC hR]; exact Join3_plain _ _ hR
  rcases hp with hp | hp | hp | hp | hp
  · subst hp; exact ⟨[], hdir⟩
  · subst hp; exact ⟨_, hfnl⟩
  · subst hp
    refine ⟨[R ++ dotJson ++ dotTmp], ?_⟩
    rw [Join_pair_suffix _ dotTmp hRj noSlash_dotTmp,
      resolve_Join_pair fs _ (plain_append dotTmp hRj noSlash_dotTmp), hdir]
    simp
  · subst hp
    refine ⟨[R], ?_⟩
    rw [hdel, resolve_Join_pair fs _ hR, hdir]
    simp
  · subst hp
    refine ⟨[R ++ dotJson], ?_⟩
    rw [hdel, Join_pair_suffix _ dotJson hR noSlash_dotJson]
    exact hfnl

/-- C9 (counterexample): on one store, `Write("a/b", "c", true)` followed by
`Write("a", "b/c", false)`: both calls succeed, both rename onto the same
path `a/b/c.json` (the second replaces the file of the first), the registry
keys `a/b` and `a` differ, and the two calls hold different locks: the second
call does not hold the lock of the first. -/
theorem C9_same_path_different_locks :
    runWriteAB.err = none ∧ runWriteA.err = none ∧
    runWriteAB.trace = [.lock 0, .mkdirAll "a/b".toList,
      .writeFile "a/b/c.json.tmp".toList,
      .rename "a/b/c.json.tmp".toList "a/b/c.json".toList, .unlock 0] ∧
    runWriteA.trace = [.lock 1, .mkdirAll "a".toList,
      .writeFile "a/b/c.json.tmp".toList,
      .rename "a/b/c.json.tmp".toList "a/b/c.json".toList, .unlock 1] ∧
    "a/b".toList ≠ "a".toList ∧
    lookupMutex runWriteA.driver.mutexes "a/b".toList = some 0 ∧
    lookupMutex runWriteA.driver.mutexes "a".toList = some 1 ∧
    guarded 0 false runWriteA.trace = false ∧
    osReadFile runWriteA.fs "a/b/c.json".toList = .ok "false\n".toList := by
  decide

/-- C9 (amended): on one store, let a mutating call (`Write` or `Delete`) on
`(C1, R1)` be followed by a mutating call on `(C2, R2)`, where the four names
are single path elements other than `.` and `..`.  If a path that an `os`
call of the first run is given (the collection directory, the final path, its
`.tmp` sibling, or the target of `os.RemoveAll`) names the same location as a
path that an `os` call of the second run is given, then `C1 = C2` as registry
keys, and the lock the registry holds for that key is held around the `os`
calls of both runs: each run takes it first, issues its `os` calls, and
releases it last. -/
theorem C9_lock_coverage {V : Type} (codec : Codec V) (d : Driver) (fs : FS)
    (C1 R1 C2 R2 : Str) (v1 v2 : V) (r1 r2 : Run) (p1 p2 : Str)
    (hC1 : plain C1) (hR1 : plain R1) (hC2 : plain C2) (hR2 : plain R2)
    (hr1 : r1 = WriteRun codec d fs C1 R1 v1 ∨ r1 = DeleteRun d fs C1 R1)
    (hr2 : r2 = WriteRun codec r1.driver r1.fs C2 R2 v2 ∨
      r2 = DeleteRun r1.driver r1.fs C2 R2)
    (hp1 : p1 ∈ tracePaths r1.trace) (hp2 : p2 ∈ tracePaths r2.trace)
    (hsame : resolve fs p1 = resolve r1.fs p2) :
    C1 = C2 ∧
    ∃ m, lookupMutex r2.driver.mutexes C1 = some m ∧
      guarded m false r1.trace = true ∧ guarded m false r2.trace = true := by
  -- the first run
  have f1 : r1.driver = (getOrCreatedMutex d C1).1 ∧ r1.fs.cwd = fs.cwd ∧
      guarded (getOrCreatedMutex d C1).2 false r1.trace = true ∧
      ∃ xs, resolve fs p1 = resolve fs (Join [d.dir]) ++ C1 :: xs := by
    rcases hr1 with h | h
    · subst h
      refine ⟨WriteRun_driver _ _ _ _ _ _, WriteRun_cwd _ _ _ _ _ _,
        WriteRun_guarded _ _ _ _ _ _, ?_⟩
      apply collection_path_resolve fs d.dir hC1 hR1
      rcases WriteRun_paths _ _ _ _ _ _ _ hp1 with h | h | h
      · exact Or.inl h
      · exact Or.inr (Or.inl h)
      · exact Or.inr (Or.inr (Or.inl h))
    · subst h
      refine ⟨DeleteRun_driver _ _ _ _, DeleteRun_cwd _ _ _ _, DeleteRun_guarded _ _ _ _, ?_⟩
      apply collection_path_resolve fs d.dir hC1 hR1
      rcases DeleteRun_paths _ _ _ _ _ hp1 with h | h
      · exact Or.inr (Or.inr (Or.inr (Or.inl h)))
      · exact Or.inr (Or.inr (Or.inr (Or.inr h)))
  obtain ⟨hd1, hc1, hg1, xs1, hx1⟩ := f1
  have hdir1 : r1.driver.dir = d.dir := by rw [hd1]; exact getOrCreatedMutex_dir d C1
  -- the second run
  have f2 : r2.driver = (getOrCreatedMutex r1.driver C2).1 ∧
      guarded (getOrCreatedMutex r1.driver C2).2 false r2.trace = true ∧
      ∃ xs, resolve fs p2 = resolve fs (Join [d.dir]) ++ C2 :: xs := by
    rcases hr2 with h | h
    · subst h
      refine ⟨WriteRun_driver _ _ _ _ _ _, WriteRun_guarded _ _ _ _ _ _, ?_⟩
      apply collection_path_resolve fs d.dir hC2 hR2
      have := WriteRun_paths _ _ _ _ _ _ _ hp2
      rw [hdir1] at this
      rcases this with h | h | h
      · exact Or.inl h
      · exact Or.inr (Or.inl h)
      · exact Or.inr (Or.inr (Or.inl h))
    · subst h
      refine ⟨DeleteRun_driver _ _ _ _, DeleteRun_guarded _ _ _ _, ?_⟩
      apply collection_path_resolve fs d.dir hC2 hR2
      have := DeleteRun_paths _ _ _ _ _ hp2
      rw [hdir1] at this
      rcases this with h | h
      · exact Or.inr (Or.inr (Or.inr (Or.inl h)))
      · exact Or.inr (Or.inr (Or.inr (Or.inr h)))
  obtain ⟨hd2, hg2, xs2, hx2⟩ := f2
  rw [resolve_cwd fs r1.fs hc1, hx1, hx2] at hsame
  have hcons := List.append_cancel_left hsame
  simp only [List.cons.injEq] at hcons
  obtain ⟨hC, _⟩ := hcons
  subst hC
  refine ⟨rfl, (getOrCreatedMutex d C1).2, ?_, hg1, ?_⟩
  · rw [hd2, lookupMutex_getOrCreated, hd1, getOrCreatedMutex_again]
  · rw [hd1, getOrCreatedMutex_again] at hg2
    exact hg2

/-- C9 (witness): in the store where `users/John.json` is a directory,
`Delete("users", "John.json")` removes `users/John.json` and the
`Write("users", "John", true)` that follows renames onto the same path; both
hold the lock of `users`. -/
theorem C9_lock_coverage_witness :
    "users".toList = "users".toList ∧
    ∃ m, lookupMutex
        (WriteRun boolCodec
          (DeleteRun demoDriver storeJsonIsDir "users".toList "John.json".toList).driver
          (DeleteRun demoDriver storeJsonIsDir "users".toList "John.json".toList).fs
          "users".toList "John".toList true).driver.mutexes "users".toList = some m ∧
      guarded m false
        (DeleteRun demoDriver storeJsonIsDir "users".toList "John.json".toList).trace = true ∧
      guarded m false
        (WriteRun boolCodec
          (DeleteRun demoDriver storeJsonIsDir "users".toList "John.json".toList).driver
          (DeleteRun demoDriver storeJsonIsDir "users".toList "John.json".toList).fs
          "users".toList "John".toList true).trace = true :=
  C9_lock_coverage boolCodec demoDriver storeJsonIsDir "users".toList "John.json".toList
    "users".toList "John".toList true true _ _
    "users/John.json".toList "users/John.json".toList
    (by decide) (by decide) (by decide) (by decide) (Or.inr rfl) (Or.inl rfl)
    (by decide) (by decide) (by decide)

end GoJsonDb
